import Mathlib

/-!
# A verification development for the PID controller of `scav_hunt/PID.{h,cpp}`

The C++ class `PID` is embedded shallowly, twice.

The first embedding, `PID`, reads the arithmetic of the code as exact:

* the object is the record `PID`, one field per data member of `PID.h`;
* every member function is a Lean function on that record, written as the
  same sequence of assignments as the C++ body (explicit state passing);
* `double` is modelled by the exact rationals `ℚ`: the arithmetic of the
  code (`+`, `-`, `*`, `/ 2.0`, `/ 6.0`) is read as exact arithmetic, so
  rounding, infinities and NaN are outside the model;
* `int interval` is modelled by `Int`; the code only ever converts it to
  `double` (in `average * interval`), which is the cast `Int → ℚ`;
* `double previousErrors[4]` is a function `Fin 4 → ℚ`, an array write
  `a[i] = x` is `Function.update a i x`.

It carries the claims that are data flow: which field is written, with which
expression of the code, in which order.  These read the same over doubles.

The second embedding, `IEEE.PID`, is the same class with `double` read as IEEE
754 binary64 (`IEEE.Dbl`, `IEEE.rnd`).  It carries the claims whose truth
depends on the laws of arithmetic, where rounding, overflow and underflow
decide.
-/

/-- The data members of `class PID` (PID.h, lines 16-26). -/
structure PID where
  /-- The sampling interval, in milliseconds. -/
  interval : Int
  /-- Adjusts how much pError affects the output. -/
  pGain : ℚ
  /-- Adjusts how much iError affects the output. -/
  iGain : ℚ
  /-- Adjusts how much dError affects the output. -/
  dGain : ℚ
  /-- The measured value of the output. -/
  value : ℚ
  /-- The previous value of the output. -/
  previousValue : ℚ
  /-- The desired value of the output. -/
  target : ℚ
  /-- Proportional error. -/
  pError : ℚ
  /-- Integral error. -/
  iError : ℚ
  /-- Derivative error. -/
  dError : ℚ
  /-- Keeps track of the last four errors. -/
  previousErrors : Fin 4 → ℚ

namespace PID

/-- The loop `for(int i = 0; i < 4; i++) previousErrors[i] = 0.0;` that closes
both the constructor and `resetErrors`: the indices 0, 1, 2, 3 are visited in
order and each visit is one array write. -/
def zeroPreviousErrors (s : PID) : PID :=
  (List.finRange 4).foldl
    (fun st i => { st with previousErrors := Function.update st.previousErrors i 0 }) s

/-- The constructor `PID::PID(int interval, double pGain, double iGain, double dGain)`
(PID.cpp, lines 22-34).  `storage` is the content of the object before the
constructor runs, which C++ leaves indeterminate: the member initialiser list
and the body overwrite it field by field. -/
def ctor (storage : PID) (interval : Int) (pGain iGain dGain : ℚ) : PID :=
  let s := { storage with interval := interval, pGain := pGain, iGain := iGain, dGain := dGain }
  let s := { s with value := 0 }
  let s := { s with previousValue := 0 }
  let s := { s with target := 0 }
  let s := { s with pError := 0 }
  let s := { s with iError := 0 }
  let s := { s with dError := 0 }
  zeroPreviousErrors s

/-- The body of `PID::calculatePError` (PID.cpp, lines 86-89). -/
def calculatePError (s : PID) : PID :=
  { s with pError := s.target - s.value }

/-- The body of `PID::calculateIError` (PID.cpp, lines 96-100). -/
def calculateIError (s : PID) : PID :=
  let average : ℚ := (s.value + s.previousValue) / 2
  { s with iError := s.iError + (average * (s.interval : ℚ)) }

/-- The body of `PID::calculateDError` (PID.cpp, lines 109-113). -/
def calculateDError (s : PID) : PID :=
  { s with dError := (s.previousErrors 0 + 3 * s.previousErrors 1
                        - 3 * s.previousErrors 2 - s.previousErrors 3) / 6 }

/-- The body of `PID::updatePreviousErrors` (PID.cpp, lines 75-81): four array
writes, in the order of the source. -/
def updatePreviousErrors (s : PID) : PID :=
  let s := { s with previousErrors := Function.update s.previousErrors 3 (s.previousErrors 2) }
  let s := { s with previousErrors := Function.update s.previousErrors 2 (s.previousErrors 1) }
  let s := { s with previousErrors := Function.update s.previousErrors 1 (s.previousErrors 0) }
  { s with previousErrors := Function.update s.previousErrors 0 s.pError }

/-- The body of `PID::update` (PID.cpp, lines 37-46). -/
def update (s : PID) (newValue newTarget : ℚ) : PID :=
  let s := { s with previousValue := s.value }
  let s := { s with value := newValue }
  let s := { s with target := newTarget }
  let s := calculatePError s
  let s := calculateIError s
  let s := calculateDError s
  updatePreviousErrors s

/-- The body of `PID::resetErrors` (PID.cpp, lines 49-60). -/
def resetErrors (s : PID) : PID :=
  let s := { s with value := 0 }
  let s := { s with previousValue := 0 }
  let s := { s with target := 0 }
  let s := { s with pError := 0 }
  let s := { s with iError := 0 }
  let s := { s with dError := 0 }
  zeroPreviousErrors s

/-- The member function `PID::getOutput` (PID.cpp, lines 66-69).  It is not
declared `const`, so it is modelled like the other members: it yields the
returned `double` together with the state of the object after the call. -/
def getOutput (s : PID) : ℚ × PID :=
  (s.pGain * s.pError + s.iGain * s.iError + s.dGain * s.dError, s)

/-- One call of the public interface on an existing controller. -/
inductive Call where
  | update (newValue newTarget : ℚ)
  | resetErrors
  | getOutput

/-- The state of the object after one call (a returned value is dropped). -/
def exec (s : PID) : Call → PID
  | Call.update newValue newTarget => update s newValue newTarget
  | Call.resetErrors => resetErrors s
  | Call.getOutput => (getOutput s).2

/-- The state of the object after a finite sequence of calls, first call first. -/
def run (s : PID) (calls : List Call) : PID :=
  calls.foldl exec s

/-- The state of the object after the first `n` calls of the sequence
`update(v 1, t 1)`, `update(v 2, t 2)`, ...: the `k`-th call feeds the
measurement `v k` and the target `t k` (the entries at index 0 are never fed). -/
def afterUpdates (s : PID) (v t : ℕ → ℚ) : ℕ → PID
  | 0 => s
  | n + 1 => update (afterUpdates s v t n) (v (n + 1)) (t (n + 1))

/-- The proportional error `e_j = t j - v j` of the `j`-th update of a sequence,
with the convention that `e_j` is 0 for every index `j < 1`, that is, before the
first update. -/
def errorAt (v t : ℕ → ℚ) (j : ℤ) : ℚ :=
  if 1 ≤ j then t j.toNat - v j.toNat else 0

/-- A controller that has just been constructed or has just been reset. -/
def Fresh (c : PID) : Prop :=
  (∃ (storage : PID) (interval : Int) (pGain iGain dGain : ℚ),
      c = ctor storage interval pGain iGain dGain)
    ∨ ∃ s : PID, c = resetErrors s

end PID

/-! ## The same class over IEEE 754 binary64

The second embedding reads `double` as binary64 with round-to-nearest, ties to
even, every `+`, `-`, `*` and `/` of the source being rounded on its own (no
extended precision, no contraction into a fused multiply-add).  A value is a NaN, an
infinity or a finite rational; the two zeros are identified, which loses
nothing here: the code divides by the literals `2.0` and `6.0` only, and a zero
of either sign compares equal to `0`.  A finite value that enters from outside
(an argument of `update`, a gain) is a double when it is representable
(`IEEE.IsRep`); every operation returns a representable value, an infinity or a
NaN. -/

namespace IEEE

/-- Rounding of a rational to the nearest integer, a tie going to the even
neighbour. -/
def roundHalfEven (x : ℚ) : ℤ :=
  if x - (⌊x⌋ : ℚ) < 1 / 2 then ⌊x⌋
  else if 1 / 2 < x - (⌊x⌋ : ℚ) then ⌊x⌋ + 1
  else if ⌊x⌋ % 2 = 0 then ⌊x⌋
  else ⌊x⌋ + 1

/-- A binary64 value: a NaN, an infinity with its sign, or a finite number. -/
inductive Dbl where
  | nan
  | inf (negative : Bool)
  | fin (q : ℚ)
deriving DecidableEq

/-- The exponent of the unit in the last place of a double of magnitude `a`:
53 significant bits, and never below the subnormal exponent `-1074`. -/
def binaryExponent (a : ℚ) : ℤ :=
  max (Int.log 2 a - 52) (-1074)

/-- The magnitude of `q` rounded to a multiple of its unit in the last place. -/
def magnitude (q : ℚ) : ℚ :=
  (roundHalfEven (|q| / 2 ^ binaryExponent |q|) : ℚ) * 2 ^ binaryExponent |q|

/-- Rounding of an exact result to binary64: to the nearest double, ties to
even, and to an infinity once the rounded magnitude reaches `2^1024`. -/
def rnd (q : ℚ) : Dbl :=
  if 2 ^ 1024 ≤ magnitude q then Dbl.inf (decide (q < 0))
  else Dbl.fin (if q < 0 then -magnitude q else magnitude q)

/-- The rationals that are finite doubles: at most 53 significant bits, an
exponent of at least `-1074`, a magnitude below `2^1024`. -/
def IsRep (x : ℚ) : Prop :=
  ∃ m e : ℤ, -1074 ≤ e ∧ |m| < 2 ^ 53 ∧ |x| < 2 ^ 1024 ∧ x = (m : ℚ) * 2 ^ e

namespace Dbl

/-- A value that is neither an infinity nor a NaN. -/
def IsFinite : Dbl → Prop
  | fin _ => True
  | _ => False

/-- A value a `double` can hold. -/
def IsDouble : Dbl → Prop
  | fin q => IsRep q
  | _ => True

/-- Unary minus. -/
def neg : Dbl → Dbl
  | nan => nan
  | inf s => inf (!s)
  | fin x => fin (-x)

/-- Addition of doubles. -/
def add : Dbl → Dbl → Dbl
  | nan, _ => nan
  | inf _, nan => nan
  | inf s, inf r => if s = r then inf s else nan
  | inf s, fin _ => inf s
  | fin _, nan => nan
  | fin _, inf r => inf r
  | fin x, fin y => rnd (x + y)

/-- Subtraction of doubles: `a - b` is `a + (-b)`. -/
def sub (a b : Dbl) : Dbl :=
  add a (neg b)

/-- Multiplication of doubles. -/
def mul : Dbl → Dbl → Dbl
  | nan, _ => nan
  | inf _, nan => nan
  | inf s, inf r => inf (xor s r)
  | inf s, fin y => if y = 0 then nan else inf (xor s (decide (y < 0)))
  | fin _, nan => nan
  | fin x, inf r => if x = 0 then nan else inf (xor (decide (x < 0)) r)
  | fin x, fin y => rnd (x * y)

/-- Division of doubles.  With the two zeros identified the sign of a quotient
by zero is not determined; the code never divides by zero, and the model
returns the sign of the dividend there. -/
def div : Dbl → Dbl → Dbl
  | nan, _ => nan
  | inf _, nan => nan
  | inf _, inf _ => nan
  | inf s, fin y => inf (xor s (decide (y < 0)))
  | fin _, nan => nan
  | fin _, inf _ => fin 0
  | fin x, fin y => if y = 0 then (if x = 0 then nan else inf (decide (x < 0))) else rnd (x / y)

/-- The conversion of an `int` to `double`. -/
def ofInt (i : Int) : Dbl :=
  rnd (i : ℚ)

end Dbl

/-- The data members of `class PID` (PID.h, lines 16-26), over binary64. -/
structure PID where
  /-- The sampling interval, in milliseconds. -/
  interval : Int
  /-- Adjusts how much pError affects the output. -/
  pGain : Dbl
  /-- Adjusts how much iError affects the output. -/
  iGain : Dbl
  /-- Adjusts how much dError affects the output. -/
  dGain : Dbl
  /-- The measured value of the output. -/
  value : Dbl
  /-- The previous value of the output. -/
  previousValue : Dbl
  /-- The desired value of the output. -/
  target : Dbl
  /-- Proportional error. -/
  pError : Dbl
  /-- Integral error. -/
  iError : Dbl
  /-- Derivative error. -/
  dError : Dbl
  /-- Keeps track of the last four errors. -/
  previousErrors : Fin 4 → Dbl

namespace PID

/-- The loop `for(int i = 0; i < 4; i++) previousErrors[i] = 0.0;` of the
constructor and of `resetErrors`. -/
def zeroPreviousErrors (s : PID) : PID :=
  (List.finRange 4).foldl
    (fun st i => { st with previousErrors := Function.update st.previousErrors i (Dbl.fin 0) }) s

/-- The constructor `PID::PID` (PID.cpp, lines 22-34); `storage` is the
indeterminate content of the object before the constructor runs. -/
def ctor (storage : PID) (interval : Int) (pGain iGain dGain : Dbl) : PID :=
  let s := { storage with interval := interval, pGain := pGain, iGain := iGain, dGain := dGain }
  let s := { s with value := Dbl.fin 0 }
  let s := { s with previousValue := Dbl.fin 0 }
  let s := { s with target := Dbl.fin 0 }
  let s := { s with pError := Dbl.fin 0 }
  let s := { s with iError := Dbl.fin 0 }
  let s := { s with dError := Dbl.fin 0 }
  zeroPreviousErrors s

/-- The body of `PID::calculatePError` (PID.cpp, lines 86-89). -/
def calculatePError (s : PID) : PID :=
  { s with pError := Dbl.sub s.target s.value }

/-- The body of `PID::calculateIError` (PID.cpp, lines 96-100). -/
def calculateIError (s : PID) : PID :=
  let average : Dbl := Dbl.div (Dbl.add s.value s.previousValue) (Dbl.fin 2)
  { s with iError := Dbl.add s.iError (Dbl.mul average (Dbl.ofInt s.interval)) }

/-- The body of `PID::calculateDError` (PID.cpp, lines 109-113), with the
grouping of the C++ expression: `((h0 + 3.0*h1) - 3.0*h2 - h3) / 6.0`. -/
def calculateDError (s : PID) : PID :=
  { s with dError := (Dbl.div
      (Dbl.sub
        (Dbl.sub
          (Dbl.add (s.previousErrors 0) (Dbl.mul (Dbl.fin 3) (s.previousErrors 1)))
          (Dbl.mul (Dbl.fin 3) (s.previousErrors 2)))
        (s.previousErrors 3))
      (Dbl.fin 6)) }

/-- The body of `PID::updatePreviousErrors` (PID.cpp, lines 75-81). -/
def updatePreviousErrors (s : PID) : PID :=
  let s := { s with previousErrors := Function.update s.previousErrors 3 (s.previousErrors 2) }
  let s := { s with previousErrors := Function.update s.previousErrors 2 (s.previousErrors 1) }
  let s := { s with previousErrors := Function.update s.previousErrors 1 (s.previousErrors 0) }
  { s with previousErrors := Function.update s.previousErrors 0 s.pError }

/-- The body of `PID::update` (PID.cpp, lines 37-46). -/
def update (s : PID) (newValue newTarget : Dbl) : PID :=
  let s := { s with previousValue := s.value }
  let s := { s with value := newValue }
  let s := { s with target := newTarget }
  let s := calculatePError s
  let s := calculateIError s
  let s := calculateDError s
  updatePreviousErrors s

/-- The body of `PID::resetErrors` (PID.cpp, lines 49-60). -/
def resetErrors (s : PID) : PID :=
  let s := { s with value := Dbl.fin 0 }
  let s := { s with previousValue := Dbl.fin 0 }
  let s := { s with target := Dbl.fin 0 }
  let s := { s with pError := Dbl.fin 0 }
  let s := { s with iError := Dbl.fin 0 }
  let s := { s with dError := Dbl.fin 0 }
  zeroPreviousErrors s

/-- The member function `PID::getOutput` (PID.cpp, lines 66-69): the returned
`double`, `(pGain*pError + iGain*iError) + dGain*dError`, and the state after
the call. -/
def getOutput (s : PID) : Dbl × PID :=
  (Dbl.add (Dbl.add (Dbl.mul s.pGain s.pError) (Dbl.mul s.iGain s.iError))
      (Dbl.mul s.dGain s.dError), s)

/-- The state of the object after the first `n` calls of the sequence
`update(v 1, t 1)`, `update(v 2, t 2)`, ... -/
def afterUpdates (s : PID) (v t : ℕ → Dbl) : ℕ → PID
  | 0 => s
  | n + 1 => update (afterUpdates s v t n) (v (n + 1)) (t (n + 1))

/-- A controller that has just been constructed or has just been reset. -/
def Fresh (c : PID) : Prop :=
  (∃ (storage : PID) (interval : Int) (pGain iGain dGain : Dbl),
      c = ctor storage interval pGain iGain dGain)
    ∨ ∃ s : PID, c = resetErrors s

end PID

/-- The closed form that claim C11 gives for the integral term after `n`
updates with the measurements `v 1 .. v n`, in exact arithmetic:
`interval * sum_{k=1..n} (v k + v (k-1)) / 2`. -/
def integralClosedForm (interval : Int) (v : ℕ → ℚ) (n : ℕ) : ℚ :=
  (interval : ℚ) * ∑ k in Finset.Icc 1 n, (v k + v (k - 1)) / 2

end IEEE

/-! ## Shared lemmas -/

namespace PID

/-- The zeroing loop leaves every field but the array alone and leaves the
array zero in all four slots, whatever it held before. -/
theorem zeroPreviousErrors_eq (s : PID) :
    zeroPreviousErrors s = { s with previousErrors := fun _ => 0 } := by
  cases s
  simp only [zeroPreviousErrors, List.finRange, List.foldl, List.pmap, List.range, List.range.loop]
  congr 1
  funext i
  fin_cases i <;> rfl

/-- The constructor as one record: the four parameters and zeros. -/
theorem ctor_eq (storage : PID) (interval : Int) (pGain iGain dGain : ℚ) :
    ctor storage interval pGain iGain dGain
      = ⟨interval, pGain, iGain, dGain, 0, 0, 0, 0, 0, 0, fun _ => 0⟩ := by
  simp only [ctor, zeroPreviousErrors_eq]

/-- The state after `resetErrors` as one record: the old parameters and zeros. -/
theorem resetErrors_eq (s : PID) :
    resetErrors s
      = ⟨s.interval, s.pGain, s.iGain, s.dGain, 0, 0, 0, 0, 0, 0, fun _ => 0⟩ := by
  simp only [resetErrors, zeroPreviousErrors_eq]

/-- The state after `update` as one record over the state before it. -/
theorem update_eq (s : PID) (newValue newTarget : ℚ) :
    update s newValue newTarget
      = ⟨s.interval, s.pGain, s.iGain, s.dGain, newValue, s.value, newTarget,
          newTarget - newValue,
          s.iError + ((newValue + s.value) / 2) * (s.interval : ℚ),
          (s.previousErrors 0 + 3 * s.previousErrors 1
            - 3 * s.previousErrors 2 - s.previousErrors 3) / 6,
          ![newTarget - newValue, s.previousErrors 0, s.previousErrors 1,
            s.previousErrors 2]⟩ := by
  simp only [update, calculatePError, calculateIError, calculateDError, updatePreviousErrors]
  congr 1
  funext i
  fin_cases i <;> rfl

/-- No call of the interface writes `interval` or a gain. -/
theorem exec_parameters (s : PID) (c : Call) :
    (exec s c).interval = s.interval ∧ (exec s c).pGain = s.pGain
      ∧ (exec s c).iGain = s.iGain ∧ (exec s c).dGain = s.dGain := by
  cases c with
  | update v t => simp [exec, update_eq]
  | resetErrors => simp [exec, resetErrors_eq]
  | getOutput => simp [exec, getOutput]

/-- No sequence of calls writes `interval` or a gain. -/
theorem run_parameters (calls : List Call) (s : PID) :
    (run s calls).interval = s.interval ∧ (run s calls).pGain = s.pGain
      ∧ (run s calls).iGain = s.iGain ∧ (run s calls).dGain = s.dGain := by
  induction calls generalizing s with
  | nil => simp [run]
  | cons c rest ih =>
    have hc := exec_parameters s c
    have hr := ih (exec s c)
    simp only [run, List.foldl_cons] at hr ⊢
    exact ⟨hr.1.trans hc.1, hr.2.1.trans hc.2.1, hr.2.2.1.trans hc.2.2.1,
      hr.2.2.2.trans hc.2.2.2⟩

/-- A fresh controller is its own parameters followed by zeros. -/
theorem Fresh.eq_zeroed {c : PID} (hc : Fresh c) :
    c = ⟨c.interval, c.pGain, c.iGain, c.dGain, 0, 0, 0, 0, 0, 0, fun _ => 0⟩ := by
  rcases hc with ⟨storage, interval, pGain, iGain, dGain, rfl⟩ | ⟨s, rfl⟩
  · rw [ctor_eq]
  · rw [resetErrors_eq]

/-- The error of an update with a positive index. -/
theorem errorAt_of_pos (v t : ℕ → ℚ) (j : ℤ) (k : ℕ) (hj : j = (k : ℤ)) (hk : 1 ≤ k) :
    errorAt v t j = t k - v k := by
  subst hj
  have h1 : (1 : ℤ) ≤ (k : ℤ) := by exact_mod_cast hk
  simp [errorAt, h1]

/-- The error before the first update is read as zero. -/
theorem errorAt_of_nonpos (v t : ℕ → ℚ) (j : ℤ) (hj : j ≤ 0) : errorAt v t j = 0 := by
  have h1 : ¬ (1 : ℤ) ≤ j := by omega
  simp [errorAt, h1]

/-- One more update of the sequence, as one record over the state before it. -/
theorem afterUpdates_succ (s : PID) (v t : ℕ → ℚ) (n : ℕ) :
    afterUpdates s v t (n + 1)
      = ⟨(afterUpdates s v t n).interval, (afterUpdates s v t n).pGain,
          (afterUpdates s v t n).iGain, (afterUpdates s v t n).dGain,
          v (n + 1), (afterUpdates s v t n).value, t (n + 1),
          t (n + 1) - v (n + 1),
          (afterUpdates s v t n).iError
            + ((v (n + 1) + (afterUpdates s v t n).value) / 2)
                * ((afterUpdates s v t n).interval : ℚ),
          ((afterUpdates s v t n).previousErrors 0 + 3 * (afterUpdates s v t n).previousErrors 1
            - 3 * (afterUpdates s v t n).previousErrors 2
            - (afterUpdates s v t n).previousErrors 3) / 6,
          ![t (n + 1) - v (n + 1), (afterUpdates s v t n).previousErrors 0,
            (afterUpdates s v t n).previousErrors 1,
            (afterUpdates s v t n).previousErrors 2]⟩ := by
  rw [afterUpdates, update_eq]

/-- A sequence of updates writes neither `interval` nor a gain. -/
theorem afterUpdates_parameters (s : PID) (v t : ℕ → ℚ) (n : ℕ) :
    (afterUpdates s v t n).interval = s.interval ∧ (afterUpdates s v t n).pGain = s.pGain
      ∧ (afterUpdates s v t n).iGain = s.iGain ∧ (afterUpdates s v t n).dGain = s.dGain := by
  induction n with
  | zero => exact ⟨rfl, rfl, rfl, rfl⟩
  | succ n ih =>
    rw [afterUpdates_succ]
    exact ih

/-- The history after four or more updates holds the last four errors, whatever
the starting state was. -/
theorem afterUpdates_history_add_four (s : PID) (v t : ℕ → ℚ) (n : ℕ) :
    (afterUpdates s v t (n + 4)).previousErrors
      = ![t (n + 4) - v (n + 4), t (n + 3) - v (n + 3), t (n + 2) - v (n + 2),
          t (n + 1) - v (n + 1)] := by
  rw [afterUpdates_succ s v t (n + 3), afterUpdates_succ s v t (n + 2),
    afterUpdates_succ s v t (n + 1), afterUpdates_succ s v t n]
  rfl

/-- The history of a fresh controller after `n` updates: slot `i` holds the
error of update `n - i`, or zero where no such update exists. -/
theorem Fresh.history {c : PID} (hc : Fresh c) (v t : ℕ → ℚ) (n : ℕ) (i : Fin 4) :
    (afterUpdates c v t n).previousErrors i = errorAt v t ((n : ℤ) - (i.val : ℤ)) := by
  have h0 : c.previousErrors = fun _ => 0 := by rw [hc.eq_zeroed]
  rcases n with _ | _ | _ | _ | m
  · rw [errorAt_of_nonpos _ _ _ (by push_cast; omega)]
    simp [afterUpdates, h0]
  · rw [afterUpdates_succ]
    fin_cases i
    · rw [errorAt_of_pos v t _ 1 (by simp) le_rfl]; rfl
    · rw [errorAt_of_nonpos _ _ _ (by simp)]; simp [afterUpdates, h0]
    · rw [errorAt_of_nonpos _ _ _ (by simp)]; simp [afterUpdates, h0]
    · rw [errorAt_of_nonpos _ _ _ (by simp)]; simp [afterUpdates, h0]
  · rw [afterUpdates_succ, afterUpdates_succ]
    fin_cases i
    · rw [errorAt_of_pos v t _ 2 (by simp) (by omega)]; rfl
    · rw [errorAt_of_pos v t _ 1 (by simp) le_rfl]; rfl
    · rw [errorAt_of_nonpos _ _ _ (by simp)]; simp [afterUpdates, h0]
    · rw [errorAt_of_nonpos _ _ _ (by simp)]; simp [afterUpdates, h0]
  · rw [afterUpdates_succ, afterUpdates_succ, afterUpdates_succ]
    fin_cases i
    · rw [errorAt_of_pos v t _ 3 (by simp) (by omega)]; rfl
    · rw [errorAt_of_pos v t _ 2 (by simp) (by omega)]; rfl
    · rw [errorAt_of_pos v t _ 1 (by simp) le_rfl]; rfl
    · rw [errorAt_of_nonpos _ _ _ (by simp)]; simp [afterUpdates, h0]
  · rw [afterUpdates_history_add_four]
    fin_cases i
    · rw [errorAt_of_pos v t _ (m + 4) (by push_cast; ring) (by omega)]; rfl
    · rw [errorAt_of_pos v t _ (m + 3) (by push_cast; ring) (by omega)]; rfl
    · rw [errorAt_of_pos v t _ (m + 2) (by push_cast; ring) (by omega)]; rfl
    · rw [errorAt_of_pos v t _ (m + 1) (by push_cast; ring) (by omega)]; rfl

/-- The targets of a sequence of updates take no part in the measurement held
nor in the integral term. -/
theorem afterUpdates_value_iError_congr (s : PID) (v t1 t2 : ℕ → ℚ) (n : ℕ) :
    (afterUpdates s v t1 n).value = (afterUpdates s v t2 n).value
      ∧ (afterUpdates s v t1 n).iError = (afterUpdates s v t2 n).iError := by
  induction n with
  | zero => exact ⟨rfl, rfl⟩
  | succ n ih =>
    rw [afterUpdates_succ, afterUpdates_succ]
    refine ⟨rfl, ?_⟩
    show (afterUpdates s v t1 n).iError
          + ((v (n + 1) + (afterUpdates s v t1 n).value) / 2)
              * ((afterUpdates s v t1 n).interval : ℚ)
        = (afterUpdates s v t2 n).iError
          + ((v (n + 1) + (afterUpdates s v t2 n).value) / 2)
              * ((afterUpdates s v t2 n).interval : ℚ)
    rw [ih.1, ih.2, (afterUpdates_parameters s v t1 n).1, (afterUpdates_parameters s v t2 n).1]

end PID

/-! ## Lemmas on binary64 rounding -/

namespace IEEE

/-- An integer is its own rounding. -/
theorem roundHalfEven_intCast (k : ℤ) : roundHalfEven (k : ℚ) = k := by
  simp [roundHalfEven]

/-- Rounding never goes below the floor. -/
theorem floor_le_roundHalfEven (x : ℚ) : ⌊x⌋ ≤ roundHalfEven x := by
  unfold roundHalfEven
  split_ifs <;> omega

/-- Rounding never goes above the floor plus one. -/
theorem roundHalfEven_le_floor_succ (x : ℚ) : roundHalfEven x ≤ ⌊x⌋ + 1 := by
  unfold roundHalfEven
  split_ifs <;> omega

/-- An integer that is strictly nearer to `x` than half a unit is the rounding
of `x`. -/
theorem roundHalfEven_of_near (x : ℚ) (k : ℤ) (h : |x - (k : ℚ)| < 1 / 2) :
    roundHalfEven x = k := by
  have h1 := abs_lt.mp h
  have hf1 : (⌊x⌋ : ℚ) ≤ x := Int.floor_le x
  have hf2 : x < (⌊x⌋ : ℚ) + 1 := Int.lt_floor_add_one x
  unfold roundHalfEven
  split_ifs with ha hb hc
  · have hq1 : ((⌊x⌋ - k : ℤ) : ℚ) < 1 := by push_cast; linarith [h1.1]
    have hq2 : ((k - ⌊x⌋ : ℤ) : ℚ) < 1 := by push_cast; linarith [h1.2]
    have h3 : ⌊x⌋ - k < 1 := by exact_mod_cast hq1
    have h4 : k - ⌊x⌋ < 1 := by exact_mod_cast hq2
    omega
  · have : ((⌊x⌋ + 1 - k : ℤ) : ℚ) < 1 := by push_cast; linarith [h1.1]
    have h3 : ⌊x⌋ + 1 - k < 1 := by exact_mod_cast this
    have : ((k - (⌊x⌋ + 1) : ℤ) : ℚ) < 1 := by push_cast; linarith [h1.2]
    have h4 : k - (⌊x⌋ + 1) < 1 := by exact_mod_cast this
    omega
  · exfalso
    have hx : x - (⌊x⌋ : ℚ) = 1 / 2 := le_antisymm (not_lt.mp hb) (not_lt.mp ha)
    have : (0 : ℚ) < ((k - ⌊x⌋ : ℤ) : ℚ) := by push_cast; linarith [h1.2]
    have h3 : 0 < k - ⌊x⌋ := by exact_mod_cast this
    have : ((k - ⌊x⌋ : ℤ) : ℚ) < 1 := by push_cast; linarith [h1.1]
    have h4 : k - ⌊x⌋ < 1 := by exact_mod_cast this
    omega
  · exfalso
    have hx : x - (⌊x⌋ : ℚ) = 1 / 2 := le_antisymm (not_lt.mp hb) (not_lt.mp ha)
    have : (0 : ℚ) < ((k - ⌊x⌋ : ℤ) : ℚ) := by push_cast; linarith [h1.2]
    have h3 : 0 < k - ⌊x⌋ := by exact_mod_cast this
    have : ((k - ⌊x⌋ : ℤ) : ℚ) < 1 := by push_cast; linarith [h1.1]
    have h4 : k - ⌊x⌋ < 1 := by exact_mod_cast this
    omega

/-- The exponent of the last place is never below the subnormal exponent. -/
theorem binaryExponent_ge (a : ℚ) : -1074 ≤ binaryExponent a :=
  le_max_right _ _

/-- Every power of two is positive. -/
theorem two_zpow_pos (e : ℤ) : (0 : ℚ) < 2 ^ e :=
  zpow_pos (by norm_num) e

/-- The exponent of the last place of a magnitude between `2^(b+52)` and
`2^(b+53)`, for `b` in the normal range. -/
theorem binaryExponent_of_normal (a : ℚ) (b : ℤ) (hb : -1074 ≤ b)
    (h1 : (2 : ℚ) ^ (b + 52) ≤ a) (h2 : a < (2 : ℚ) ^ (b + 53)) : binaryExponent a = b := by
  have hpos : 0 < a := lt_of_lt_of_le (two_zpow_pos _) h1
  have hle : b + 52 ≤ Int.log 2 a := by
    apply (Int.zpow_le_iff_le_log (by norm_num) hpos).mp
    rw [Nat.cast_ofNat]
    exact h1
  have hlt : Int.log 2 a < b + 53 := by
    apply (Int.lt_zpow_iff_log_lt (by norm_num) hpos).mp
    rw [Nat.cast_ofNat]
    exact h2
  unfold binaryExponent
  rw [max_eq_left (by omega)]
  omega

/-- A rational with at most 53 significant bits above the smallest exponent
is its own rounding magnitude. -/
theorem magnitude_of_rep (x : ℚ) (m e : ℤ) (he : -1074 ≤ e) (hm : |m| < 2 ^ 53)
    (h : x = (m : ℚ) * 2 ^ e) : magnitude x = |x| := by
  have habs : |x| = |(m : ℚ)| * 2 ^ e := by
    rw [h, abs_mul, abs_of_pos (two_zpow_pos e)]
  by_cases hx0 : x = 0
  · subst hx0
    simp [magnitude, roundHalfEven]
  have hpos : 0 < |x| := abs_pos.mpr hx0
  have hm1 : |(m : ℚ)| < 2 ^ (53 : ℤ) := by
    rw [zpow_ofNat]
    exact_mod_cast hm
  have hlt : |x| < ((2 : ℕ) : ℚ) ^ (e + 53) := by
    rw [habs, zpow_add₀ (by norm_num), mul_comm]
    push_cast
    exact mul_lt_mul_of_pos_left hm1 (two_zpow_pos e)
  have hlog : Int.log 2 |x| < e + 53 := (Int.lt_zpow_iff_log_lt (by norm_num) hpos).mp hlt
  have hle : binaryExponent |x| ≤ e := by
    unfold binaryExponent
    exact max_le (by omega) he
  unfold magnitude
  generalize binaryExponent |x| = b at hle ⊢
  obtain ⟨d, hd⟩ : ∃ d : ℕ, e = b + d := ⟨(e - b).toNat, by omega⟩
  have h2 := two_zpow_pos b
  have hscaled : |x| / 2 ^ b = ((|m| * 2 ^ d : ℤ) : ℚ) := by
    rw [habs, hd, zpow_add₀ (by norm_num : (2 : ℚ) ≠ 0), zpow_natCast]
    field_simp
    ring
  rw [hscaled, roundHalfEven_intCast, ← hscaled]
  field_simp

/-- Rounding leaves a representable number as it is. -/
theorem rnd_of_isRep (x : ℚ) (hx : IsRep x) : rnd x = Dbl.fin x := by
  obtain ⟨m, e, he, hm, hb, h⟩ := hx
  unfold rnd
  rw [magnitude_of_rep x m e he hm h, if_neg (not_le.mpr hb)]
  congr 1
  split_ifs with hneg
  · rw [abs_of_neg hneg, neg_neg]
  · rw [abs_of_nonneg (not_lt.mp hneg)]

/-- A number `m * 2^e` with `|m| < 2^k`, `k <= 53` and `e + k <= 1024` is
representable. -/
theorem isRep_of_bits (x : ℚ) (m e : ℤ) (k : ℕ) (hk : k ≤ 53) (hm : |m| < 2 ^ k)
    (he : -1074 ≤ e) (hke : e + k ≤ 1024) (h : x = (m : ℚ) * 2 ^ e) : IsRep x := by
  refine ⟨m, e, he, lt_of_lt_of_le hm (pow_le_pow_right₀ (by norm_num) hk), ?_, h⟩
  have hm1 : |(m : ℚ)| < 2 ^ (k : ℤ) := by
    rw [zpow_natCast]
    exact_mod_cast hm
  rw [h, abs_mul, abs_of_pos (two_zpow_pos e)]
  calc |(m : ℚ)| * 2 ^ e < 2 ^ (k : ℤ) * 2 ^ e :=
        mul_lt_mul_of_pos_right hm1 (two_zpow_pos e)
    _ = 2 ^ ((k : ℤ) + e) := (zpow_add₀ (by norm_num) _ _).symm
    _ ≤ 2 ^ (1024 : ℤ) := zpow_le_zpow_right₀ (by norm_num) (by omega)
    _ = 2 ^ 1024 := zpow_ofNat 2 1024

/-- Rounding leaves `m * 2^e` as it is when `|m| < 2^k`, `k <= 53` and `e + k <= 1024`. -/
theorem rnd_of_bits (x : ℚ) (m e : ℤ) (k : ℕ) (hk : k ≤ 53) (hm : |m| < 2 ^ k)
    (he : -1074 ≤ e) (hke : e + k ≤ 1024) (h : x = (m : ℚ) * 2 ^ e) : rnd x = Dbl.fin x :=
  rnd_of_isRep x (isRep_of_bits x m e k hk hm he hke h)

/-- An integer below `2^53` in magnitude is representable. -/
theorem isRep_intCast (i : ℤ) (hi : |i| < 2 ^ 53) : IsRep (i : ℚ) :=
  isRep_of_bits i i 0 53 le_rfl hi (by norm_num) (by norm_num) (by simp)

/-- Zero is representable. -/
theorem isRep_zero : IsRep 0 := by
  simpa using isRep_intCast 0 (by norm_num)

/-- Zero rounds to zero. -/
theorem rnd_zero : rnd 0 = Dbl.fin 0 :=
  rnd_of_isRep 0 isRep_zero

/-- The opposite of a representable number is representable. -/
theorem isRep_neg (x : ℚ) (hx : IsRep x) : IsRep (-x) := by
  obtain ⟨m, e, he, hm, hb, h⟩ := hx
  refine ⟨-m, e, he, by rwa [abs_neg], by rwa [abs_neg], ?_⟩
  rw [h]
  push_cast
  ring

/-- Overflow: a magnitude of `2^1024` or more rounds to an infinity. -/
theorem rnd_overflow (q : ℚ) (hq : 2 ^ 1024 ≤ |q|) : rnd q = Dbl.inf (decide (q < 0)) := by
  have hpos : 0 < |q| := lt_of_lt_of_le (by positivity) hq
  have hlog : (1024 : ℤ) ≤ Int.log 2 |q| := by
    apply (Int.zpow_le_iff_le_log (by norm_num) hpos).mp
    rw [Nat.cast_ofNat, zpow_ofNat]
    exact hq
  have hexp : binaryExponent |q| = Int.log 2 |q| - 52 := by
    unfold binaryExponent
    exact max_eq_left (by omega)
  have hself : ((2 : ℕ) : ℚ) ^ Int.log 2 |q| ≤ |q| := Int.zpow_log_le_self (by norm_num) hpos
  have h2 := two_zpow_pos (binaryExponent |q|)
  have hscaled : (2 : ℚ) ^ 52 ≤ |q| / 2 ^ binaryExponent |q| := by
    rw [le_div_iff₀ h2, hexp]
    have : (2 : ℚ) ^ 52 * 2 ^ (Int.log 2 |q| - 52) = 2 ^ Int.log 2 |q| := by
      rw [← zpow_natCast, ← zpow_add₀ (by norm_num)]
      congr 1
      push_cast
      ring
    rw [this]
    exact_mod_cast hself
  have hfloor : (2 : ℤ) ^ 52 ≤ roundHalfEven (|q| / 2 ^ binaryExponent |q|) := by
    refine le_trans ?_ (floor_le_roundHalfEven _)
    apply Int.le_floor.mpr
    exact_mod_cast hscaled
  have hmag : (2 : ℚ) ^ 1024 ≤ magnitude q := by
    unfold magnitude
    have h3 : (2 : ℚ) ^ 52 ≤ (roundHalfEven (|q| / 2 ^ binaryExponent |q|) : ℚ) := by
      exact_mod_cast hfloor
    calc (2 : ℚ) ^ 1024 = 2 ^ 52 * 2 ^ (972 : ℤ) := by
          rw [← zpow_natCast, ← zpow_natCast, ← zpow_add₀ (by norm_num)]
          norm_num
      _ ≤ 2 ^ 52 * 2 ^ binaryExponent |q| := by
          apply mul_le_mul_of_nonneg_left _ (by positivity)
          exact zpow_le_zpow_right₀ (by norm_num) (by omega)
      _ ≤ _ := mul_le_mul_of_nonneg_right h3 (le_of_lt h2)
  unfold rnd
  rw [if_pos hmag]

/-- Underflow: a magnitude of at most `2^-1075`, half the smallest subnormal,
rounds to zero. -/
theorem rnd_underflow (q : ℚ) (hq : |q| ≤ 2 ^ (-1075 : ℤ)) : rnd q = Dbl.fin 0 := by
  by_cases hq0 : q = 0
  · rw [hq0, rnd_zero]
  have hpos : 0 < |q| := abs_pos.mpr hq0
  have hlt : |q| < ((2 : ℕ) : ℚ) ^ (-1074 : ℤ) := by
    refine lt_of_le_of_lt hq ?_
    push_cast
    exact zpow_lt_zpow_right₀ (by norm_num) (by norm_num)
  have hlog : Int.log 2 |q| < -1074 := (Int.lt_zpow_iff_log_lt (by norm_num) hpos).mp hlt
  have hexp : binaryExponent |q| = -1074 := by
    unfold binaryExponent
    exact max_eq_right (by omega)
  have hs0 : 0 ≤ |q| / 2 ^ (-1074 : ℤ) := by positivity
  have hs1 : |q| / 2 ^ (-1074 : ℤ) ≤ 1 / 2 := by
    rw [div_le_iff₀ (two_zpow_pos _)]
    have : (1 / 2 : ℚ) * 2 ^ (-1074 : ℤ) = 2 ^ (-1075 : ℤ) := by
      rw [show (-1074 : ℤ) = -1075 + 1 by norm_num, zpow_add₀ (by norm_num)]
      norm_num
    rw [this]
    exact hq
  have hfl : ⌊|q| / 2 ^ (-1074 : ℤ)⌋ = 0 := by
    rw [Int.floor_eq_iff]
    constructor
    · exact_mod_cast hs0
    · push_cast
      linarith
  have hr : roundHalfEven (|q| / 2 ^ (-1074 : ℤ)) = 0 := by
    unfold roundHalfEven
    rw [hfl]
    simp only [Int.cast_zero, sub_zero]
    split_ifs with h1 h2
    · rfl
    · exact absurd h2 (not_lt.mpr hs1)
    · rfl
    · simp at *
  have hmag : magnitude q = 0 := by
    unfold magnitude
    rw [hexp, hr]
    simp
  unfold rnd
  rw [hmag, if_neg (by norm_num)]
  simp

/-- The magnitude of a rounding is a multiple `m * 2^e` of the last place with
`0 <= m <= 2^53`. -/
theorem magnitude_eq (q : ℚ) :
    ∃ m e : ℤ, -1074 ≤ e ∧ 0 ≤ m ∧ m ≤ 2 ^ 53 ∧ magnitude q = (m : ℚ) * 2 ^ e := by
  refine ⟨roundHalfEven (|q| / 2 ^ binaryExponent |q|), binaryExponent |q|,
    binaryExponent_ge _, ?_, ?_, rfl⟩
  · refine le_trans ?_ (floor_le_roundHalfEven _)
    exact Int.floor_nonneg.mpr (div_nonneg (abs_nonneg q) (le_of_lt (two_zpow_pos _)))
  · refine le_trans (roundHalfEven_le_floor_succ _) ?_
    have hcast : (((2 : ℤ) ^ 53 : ℤ) : ℚ) = (2 : ℚ) ^ (53 : ℤ) := by norm_num
    have hlt : |q| / 2 ^ binaryExponent |q| < (((2 : ℤ) ^ 53 : ℤ) : ℚ) := by
      rw [div_lt_iff₀ (two_zpow_pos _), hcast, ← zpow_add₀ (by norm_num)]
      have h1 : |q| < ((2 : ℕ) : ℚ) ^ (Int.log 2 |q| + 1) :=
        Int.lt_zpow_succ_log_self (by norm_num) |q|
      rw [Nat.cast_ofNat] at h1
      refine lt_of_lt_of_le h1 (zpow_le_zpow_right₀ (by norm_num) ?_)
      have := le_max_left (Int.log 2 |q| - 52) (-1074)
      unfold binaryExponent
      omega
    have := Int.floor_lt.mpr hlt
    omega

/-- A finite result of rounding is representable. -/
theorem isRep_of_rnd (q x : ℚ) (h : rnd q = Dbl.fin x) : IsRep x := by
  unfold rnd at h
  by_cases hov : (2 : ℚ) ^ 1024 ≤ magnitude q
  · rw [if_pos hov] at h
    cases h
  rw [if_neg hov] at h
  have hlt : magnitude q < 2 ^ 1024 := not_le.mp hov
  obtain ⟨m, e, he, hm0, hm, hmag⟩ := magnitude_eq q
  have hrep : IsRep (magnitude q) := by
    have habs : |magnitude q| < 2 ^ 1024 := by
      rw [abs_of_nonneg]
      · exact hlt
      · rw [hmag]
        exact mul_nonneg (by exact_mod_cast hm0) (le_of_lt (two_zpow_pos e))
    rcases lt_or_eq_of_le hm with hml | hme
    · exact ⟨m, e, he, by rw [abs_of_nonneg hm0]; exact hml, habs, hmag⟩
    · refine ⟨2 ^ 52, e + 1, by omega, ?_, habs, ?_⟩
      · rw [abs_of_nonneg (by positivity)]
        norm_num
      · rw [hmag, hme, zpow_add₀ (by norm_num)]
        push_cast
        ring
  have hx : x = if q < 0 then -magnitude q else magnitude q := by
    injection h with h1
    exact h1.symm
  rw [hx]
  split_ifs
  · exact isRep_neg _ hrep
  · exact hrep

/-- Rounding to the nearest double when the nearest multiple of the last place
is strictly nearer than half a unit: `b` is the exponent of the last place of
`q` and `m` the multiple. -/
theorem rnd_of_near (q : ℚ) (b m : ℤ) (hb : binaryExponent |q| = b)
    (hm : |(|q| / 2 ^ b) - (m : ℚ)| < 1 / 2) (hov : (m : ℚ) * 2 ^ b < 2 ^ 1024) :
    rnd q = Dbl.fin (if q < 0 then -((m : ℚ) * 2 ^ b) else (m : ℚ) * 2 ^ b) := by
  have hmag : magnitude q = (m : ℚ) * 2 ^ b := by
    unfold magnitude
    rw [hb, roundHalfEven_of_near _ m hm]
  unfold rnd
  rw [hmag, if_neg (not_le.mpr hov)]

end IEEE

namespace IEEE

/-- No overflow: a magnitude below `2^1023` rounds to a finite double. -/
theorem isFinite_rnd (q : ℚ) (hq : |q| < 2 ^ 1023) : (rnd q).IsFinite := by
  by_cases hq0 : q = 0
  · rw [hq0, rnd_zero]
    trivial
  have hpos : 0 < |q| := abs_pos.mpr hq0
  have h2 := two_zpow_pos (binaryExponent |q|)
  have hM : (roundHalfEven (|q| / 2 ^ binaryExponent |q|) : ℚ)
      ≤ |q| / 2 ^ binaryExponent |q| + 1 := by
    have h1 := roundHalfEven_le_floor_succ (|q| / 2 ^ binaryExponent |q|)
    have h3 : ((⌊|q| / 2 ^ binaryExponent |q|⌋ : ℤ) : ℚ) ≤ |q| / 2 ^ binaryExponent |q| :=
      Int.floor_le _
    have h4 : (roundHalfEven (|q| / 2 ^ binaryExponent |q|) : ℚ)
        ≤ ((⌊|q| / 2 ^ binaryExponent |q|⌋ + 1 : ℤ) : ℚ) := by exact_mod_cast h1
    push_cast at h4
    linarith
  have hulp : (2 : ℚ) ^ binaryExponent |q| < 2 ^ 1023 := by
    have h1023 : (2 : ℚ) ^ (1023 : ℤ) = 2 ^ 1023 := zpow_ofNat 2 1023
    rw [← h1023]
    apply zpow_lt_zpow_right₀ (by norm_num)
    have hlog : Int.log 2 |q| < 1023 := by
      apply (Int.lt_zpow_iff_log_lt (by norm_num) hpos).mp
      rw [Nat.cast_ofNat, zpow_ofNat]
      exact hq
    unfold binaryExponent
    exact max_lt (by omega) (by norm_num)
  have hmag : magnitude q < 2 ^ 1024 := by
    unfold magnitude
    calc (roundHalfEven (|q| / 2 ^ binaryExponent |q|) : ℚ) * 2 ^ binaryExponent |q|
        ≤ (|q| / 2 ^ binaryExponent |q| + 1) * 2 ^ binaryExponent |q| :=
          mul_le_mul_of_nonneg_right hM (le_of_lt h2)
      _ = |q| + 2 ^ binaryExponent |q| := by field_simp
      _ < 2 ^ 1023 + 2 ^ 1023 := add_lt_add hq hulp
      _ = 2 ^ 1024 := by rw [pow_succ 2 1023]; ring
  unfold rnd
  rw [if_neg (not_le.mpr hmag)]
  trivial

end IEEE

/-! ## Lemmas on the operations on doubles -/

namespace IEEE

namespace Dbl

/-- Every result of rounding is a double. -/
theorem isDouble_rnd (q : ℚ) : IsDouble (rnd q) := by
  cases h : rnd q with
  | nan => trivial
  | inf s => trivial
  | fin x => exact isRep_of_rnd q x h

/-- The finite values are the values `fin x`. -/
theorem isFinite_iff (a : Dbl) : IsFinite a ↔ ∃ x : ℚ, a = fin x := by
  cases a with
  | nan => simp [IsFinite]
  | inf s => simp [IsFinite]
  | fin x => simp [IsFinite]

/-- Every sum is a double. -/
theorem isDouble_add (a b : Dbl) : IsDouble (add a b) := by
  cases a <;> cases b <;> simp only [add] <;> try trivial
  · split_ifs <;> trivial
  · exact isDouble_rnd _

/-- Every product is a double. -/
theorem isDouble_mul (a b : Dbl) : IsDouble (mul a b) := by
  cases a <;> cases b <;> simp only [mul] <;> try trivial
  · split_ifs <;> trivial
  · split_ifs <;> trivial
  · exact isDouble_rnd _

/-- A sum with a NaN on the right is a NaN. -/
theorem add_nan (a : Dbl) : add a nan = nan := by
  cases a <;> rfl

/-- A sum with a NaN on the left is a NaN. -/
theorem nan_add (a : Dbl) : add nan a = nan := rfl

/-- Adding a zero to a double leaves it as it is. -/
theorem add_zero_of_isDouble (a : Dbl) (h : IsDouble a) : add a (fin 0) = a := by
  cases a with
  | nan => rfl
  | inf s => rfl
  | fin x =>
    show rnd (x + 0) = fin x
    rw [add_zero]
    exact rnd_of_isRep x h

/-- Adding a double to a zero gives that double. -/
theorem zero_add_of_isDouble (a : Dbl) (h : IsDouble a) : add (fin 0) a = a := by
  cases a with
  | nan => rfl
  | inf s => rfl
  | fin x =>
    show rnd (0 + x) = fin x
    rw [zero_add]
    exact rnd_of_isRep x h

/-- Zero times a finite number is zero. -/
theorem zero_mul_fin (x : ℚ) : mul (fin 0) (fin x) = fin 0 := by
  show rnd (0 * x) = fin 0
  rw [zero_mul, rnd_zero]

/-- A finite number times zero is zero. -/
theorem fin_mul_zero (x : ℚ) : mul (fin x) (fin 0) = fin 0 := by
  show rnd (x * 0) = fin 0
  rw [mul_zero, rnd_zero]

/-- The product of a zero and a finite value is a zero. -/
theorem zero_mul_of_isFinite (a : Dbl) (h : IsFinite a) : mul (fin 0) a = fin 0 := by
  obtain ⟨x, rfl⟩ := (isFinite_iff a).mp h
  exact zero_mul_fin x

/-- The product of a finite value and a zero is a zero. -/
theorem mul_zero_of_isFinite (a : Dbl) (h : IsFinite a) : mul a (fin 0) = fin 0 := by
  obtain ⟨x, rfl⟩ := (isFinite_iff a).mp h
  exact fin_mul_zero x

/-- Multiplying a double by one leaves it as it is. -/
theorem one_mul_of_isDouble (a : Dbl) (h : IsDouble a) : mul (fin 1) a = a := by
  cases a with
  | nan => rfl
  | inf s => norm_num [mul]
  | fin x =>
    show rnd (1 * x) = fin x
    rw [one_mul]
    exact rnd_of_isRep x h

/-- The difference of two finite values is the rounded exact difference. -/
theorem sub_fin_fin (x y : ℚ) : sub (fin x) (fin y) = rnd (x - y) := by
  show rnd (x + -y) = rnd (x - y)
  rw [sub_eq_add_neg]

/-- The sum of two finite values is the rounded exact sum. -/
theorem add_fin_fin (x y : ℚ) : add (fin x) (fin y) = rnd (x + y) := rfl

/-- The product of two finite values is the rounded exact product. -/
theorem mul_fin_fin (x y : ℚ) : mul (fin x) (fin y) = rnd (x * y) := rfl

/-- The quotient of two finite values, the divisor not zero, is the rounded exact quotient. -/
theorem div_fin_fin (x y : ℚ) (hy : y ≠ 0) : div (fin x) (fin y) = rnd (x / y) := by
  simp [div, hy]

/-- The conversion of an `int` of 32 bits is exact. -/
theorem ofInt_of_lt (i : ℤ) (h : |i| < 2 ^ 53) : ofInt i = fin (i : ℚ) :=
  rnd_of_isRep _ (isRep_intCast i h)

/-- The derivative formula of `calculateDError` on an all-zero history. -/
theorem derivative_of_zeros :
    div (sub (sub (add (fin 0) (mul (fin 3) (fin 0))) (mul (fin 3) (fin 0))) (fin 0)) (fin 6)
      = fin 0 := by
  rw [fin_mul_zero, add_fin_fin, add_zero, rnd_zero, sub_fin_fin, sub_zero, rnd_zero,
    sub_fin_fin, sub_zero, rnd_zero, div_fin_fin 0 6 (by norm_num), zero_div, rnd_zero]

end Dbl

/-! ## Lemmas on the class over doubles -/

namespace PID

open Dbl

/-- The zeroing loop leaves every field but the array alone and leaves the array zero. -/
theorem zeroPreviousErrors_eq_dbl (s : PID) :
    zeroPreviousErrors s = { s with previousErrors := fun _ => fin 0 } := by
  cases s
  simp only [zeroPreviousErrors, List.finRange, List.foldl, List.pmap, List.range, List.range.loop]
  congr 1
  funext i
  fin_cases i <;> rfl

/-- The constructor as one record: the four parameters and zeros. -/
theorem ctor_eq_dbl (storage : PID) (interval : Int) (pGain iGain dGain : Dbl) :
    ctor storage interval pGain iGain dGain
      = ⟨interval, pGain, iGain, dGain, fin 0, fin 0, fin 0, fin 0, fin 0, fin 0,
          fun _ => fin 0⟩ := by
  simp only [ctor, zeroPreviousErrors_eq_dbl]

/-- The state after `resetErrors` as one record. -/
theorem resetErrors_eq_dbl (s : PID) :
    resetErrors s
      = ⟨s.interval, s.pGain, s.iGain, s.dGain, fin 0, fin 0, fin 0, fin 0, fin 0, fin 0,
          fun _ => fin 0⟩ := by
  simp only [resetErrors, zeroPreviousErrors_eq_dbl]

/-- The state after `update` as one record over the state before it. -/
theorem update_eq_dbl (s : PID) (newValue newTarget : Dbl) :
    update s newValue newTarget
      = ⟨s.interval, s.pGain, s.iGain, s.dGain, newValue, s.value, newTarget,
          sub newTarget newValue,
          add s.iError (mul (div (add newValue s.value) (fin 2)) (ofInt s.interval)),
          div (sub (sub (add (s.previousErrors 0) (mul (fin 3) (s.previousErrors 1)))
            (mul (fin 3) (s.previousErrors 2))) (s.previousErrors 3)) (fin 6),
          ![sub newTarget newValue, s.previousErrors 0, s.previousErrors 1,
            s.previousErrors 2]⟩ := by
  simp only [update, calculatePError, calculateIError, calculateDError, updatePreviousErrors]
  congr 1
  funext i
  fin_cases i <;> rfl

/-- A fresh controller is its own parameters followed by zeros. -/
theorem Fresh.eq_zeroed_dbl {c : PID} (hc : Fresh c) :
    c = ⟨c.interval, c.pGain, c.iGain, c.dGain, fin 0, fin 0, fin 0, fin 0, fin 0, fin 0,
          fun _ => fin 0⟩ := by
  rcases hc with ⟨storage, interval, pGain, iGain, dGain, rfl⟩ | ⟨s, rfl⟩
  · rw [ctor_eq_dbl]
  · rw [resetErrors_eq_dbl]

/-- One more update of the sequence, as one record over the state before it. -/
theorem afterUpdates_succ_dbl (s : PID) (v t : ℕ → Dbl) (n : ℕ) :
    afterUpdates s v t (n + 1)
      = ⟨(afterUpdates s v t n).interval, (afterUpdates s v t n).pGain,
          (afterUpdates s v t n).iGain, (afterUpdates s v t n).dGain,
          v (n + 1), (afterUpdates s v t n).value, t (n + 1),
          sub (t (n + 1)) (v (n + 1)),
          add (afterUpdates s v t n).iError
            (mul (div (add (v (n + 1)) (afterUpdates s v t n).value) (fin 2))
              (ofInt (afterUpdates s v t n).interval)),
          div (sub (sub (add ((afterUpdates s v t n).previousErrors 0)
              (mul (fin 3) ((afterUpdates s v t n).previousErrors 1)))
            (mul (fin 3) ((afterUpdates s v t n).previousErrors 2)))
            ((afterUpdates s v t n).previousErrors 3)) (fin 6),
          ![sub (t (n + 1)) (v (n + 1)), (afterUpdates s v t n).previousErrors 0,
            (afterUpdates s v t n).previousErrors 1,
            (afterUpdates s v t n).previousErrors 2]⟩ := by
  rw [afterUpdates, update_eq_dbl]

/-- A sequence of updates writes neither `interval` nor a gain. -/
theorem afterUpdates_parameters_dbl (s : PID) (v t : ℕ → Dbl) (n : ℕ) :
    (afterUpdates s v t n).interval = s.interval ∧ (afterUpdates s v t n).pGain = s.pGain
      ∧ (afterUpdates s v t n).iGain = s.iGain ∧ (afterUpdates s v t n).dGain = s.dGain := by
  induction n with
  | zero => exact ⟨rfl, rfl, rfl, rfl⟩
  | succ n ih =>
    rw [afterUpdates_succ_dbl]
    exact ih

/-- The history after four or more updates holds the last four errors. -/
theorem afterUpdates_history_add_four_dbl (s : PID) (v t : ℕ → Dbl) (n : ℕ) :
    (afterUpdates s v t (n + 4)).previousErrors
      = ![sub (t (n + 4)) (v (n + 4)), sub (t (n + 3)) (v (n + 3)),
          sub (t (n + 2)) (v (n + 2)), sub (t (n + 1)) (v (n + 1))] := by
  rw [afterUpdates_succ_dbl s v t (n + 3), afterUpdates_succ_dbl s v t (n + 2),
    afterUpdates_succ_dbl s v t (n + 1), afterUpdates_succ_dbl s v t n]
  rfl

/-- Replacing the gains of the starting state only replaces the gains of the
state reached by a sequence of updates. -/
theorem afterUpdates_with_gains_dbl (s : PID) (p i d : Dbl) (v t : ℕ → Dbl) (n : ℕ) :
    afterUpdates { s with pGain := p, iGain := i, dGain := d } v t n
      = { afterUpdates s v t n with pGain := p, iGain := i, dGain := d } := by
  induction n with
  | zero => rfl
  | succ n ih => simp only [afterUpdates, ih, update_eq_dbl]

/-- The derivative term after the update that follows four updates: the
formula of `calculateDError` on the errors of those four updates. -/
theorem afterUpdates_dError_add_five_dbl (s : PID) (v t : ℕ → Dbl) (n : ℕ) :
    (afterUpdates s v t (n + 5)).dError
      = div (sub (sub (add (sub (t (n + 4)) (v (n + 4)))
            (mul (fin 3) (sub (t (n + 3)) (v (n + 3)))))
          (mul (fin 3) (sub (t (n + 2)) (v (n + 2)))))
          (sub (t (n + 1)) (v (n + 1)))) (fin 6) := by
  rw [afterUpdates_succ_dbl s v t (n + 4)]
  show div (sub (sub (add ((afterUpdates s v t (n + 4)).previousErrors 0)
        (mul (fin 3) ((afterUpdates s v t (n + 4)).previousErrors 1)))
      (mul (fin 3) ((afterUpdates s v t (n + 4)).previousErrors 2)))
      ((afterUpdates s v t (n + 4)).previousErrors 3)) (fin 6) = _
  rw [afterUpdates_history_add_four_dbl]
  rfl

/-- The value `getOutput` returns when the proportional term is the only one
that can be non-zero. -/
theorem output_of_pGain_only (s : PID) (hi : s.iGain = fin 0) (hd : s.dGain = fin 0)
    (hI : s.iError.IsFinite) (hD : s.dError.IsFinite) :
    (getOutput s).1 = mul s.pGain s.pError := by
  show add (add (mul s.pGain s.pError) (mul s.iGain s.iError)) (mul s.dGain s.dError) = _
  rw [hi, hd, zero_mul_of_isFinite _ hI, zero_mul_of_isFinite _ hD,
    add_zero_of_isDouble _ (isDouble_mul _ _), add_zero_of_isDouble _ (isDouble_mul _ _)]

/-- The value `getOutput` returns when the integral term is the only one that
can be non-zero. -/
theorem output_of_iGain_only (s : PID) (hp : s.pGain = fin 0) (hd : s.dGain = fin 0)
    (hP : s.pError.IsFinite) (hD : s.dError.IsFinite) :
    (getOutput s).1 = mul s.iGain s.iError := by
  show add (add (mul s.pGain s.pError) (mul s.iGain s.iError)) (mul s.dGain s.dError) = _
  rw [hp, hd, zero_mul_of_isFinite _ hP, zero_mul_of_isFinite _ hD,
    zero_add_of_isDouble _ (isDouble_mul _ _), add_zero_of_isDouble _ (isDouble_mul _ _)]

/-- The value `getOutput` returns when the derivative term is the only one that
can be non-zero. -/
theorem output_of_dGain_only (s : PID) (hp : s.pGain = fin 0) (hi : s.iGain = fin 0)
    (hP : s.pError.IsFinite) (hI : s.iError.IsFinite) :
    (getOutput s).1 = mul s.dGain s.dError := by
  show add (add (mul s.pGain s.pError) (mul s.iGain s.iError)) (mul s.dGain s.dError) = _
  rw [hp, hi, zero_mul_of_isFinite _ hP, zero_mul_of_isFinite _ hI, add_fin_fin, add_zero,
    rnd_zero, zero_add_of_isDouble _ (isDouble_mul _ _)]

end PID

end IEEE

/-! ## The claims settled on the exact reading -/

namespace PID

/-- Claim C1: for every controller state, `getOutput` returns exactly
`pGain*pError + iGain*iError + dGain*dError` of that state, and the state of
the object after the call is the state before it (equal as records, hence in
every field). -/
theorem getOutput_returns_weighted_sum_and_reads_only (s : PID) :
    (getOutput s).1 = s.pGain * s.pError + s.iGain * s.iError + s.dGain * s.dError
      ∧ (getOutput s).2 = s := by
  exact ⟨rfl, rfl⟩

/-- Claim C2: after `update(newValue, newTarget)` the field `previousValue`
holds the old `value`, `value` holds `newValue`, `target` holds `newTarget` and
`pError` is `newTarget - newValue`, whatever the state before the call. -/
theorem update_shifts_value_and_sets_pError (s : PID) (newValue newTarget : ℚ) :
    (update s newValue newTarget).previousValue = s.value
      ∧ (update s newValue newTarget).value = newValue
      ∧ (update s newValue newTarget).target = newTarget
      ∧ (update s newValue newTarget).pError = newTarget - newValue := by
  rw [update_eq]
  exact ⟨rfl, rfl, rfl, rfl⟩

/-- Claim C3: `update` only increments the integral term, by the average of the
new measurement and the measurement held before the call (the old `value`),
scaled by `interval`. -/
theorem update_increments_iError (s : PID) (newValue newTarget : ℚ) :
    (update s newValue newTarget).iError
      = s.iError + ((newValue + s.value) / 2) * (s.interval : ℚ) := by
  rw [update_eq]

/-- Claim C4: the derivative term after `update` is
`(h[0] + 3*h[1] - 3*h[2] - h[3]) / 6` over the history `h` as it stood before
the call; hence two updates of the same state with any two input pairs give the
same `dError`: the new `pError` takes no part in its own `dError`. -/
theorem update_dError_uses_history_before_call (s : PID) :
    (∀ newValue newTarget : ℚ,
        (update s newValue newTarget).dError
          = (s.previousErrors 0 + 3 * s.previousErrors 1
              - 3 * s.previousErrors 2 - s.previousErrors 3) / 6)
      ∧ ∀ v1 t1 v2 t2 : ℚ, (update s v1 t1).dError = (update s v2 t2).dError := by
  refine ⟨fun newValue newTarget => ?_, fun v1 t1 v2 t2 => ?_⟩
  · rw [update_eq]
  · rw [update_eq, update_eq]

/-- Claim C5: if the history is `[h0, h1, h2, h3]` before `update(newValue,
newTarget)`, it is `[newTarget - newValue, h0, h1, h2]` after it: the new
`pError` sits in slot 0, every older entry has moved back one slot, the old
slot 3 is gone, and there are still exactly 4 entries. -/
theorem update_pushes_pError_on_history (s : PID) (newValue newTarget : ℚ) :
    List.ofFn (update s newValue newTarget).previousErrors
        = [newTarget - newValue, s.previousErrors 0, s.previousErrors 1, s.previousErrors 2]
      ∧ (update s newValue newTarget).previousErrors 0 = (update s newValue newTarget).pError
      ∧ (List.ofFn (update s newValue newTarget).previousErrors).length = 4 := by
  rw [update_eq]
  exact ⟨rfl, rfl, rfl⟩

/-- Claim C6: `resetErrors` leaves `value`, `previousValue`, `target`, `pError`,
`iError`, `dError` and the four history slots at 0, and `interval`, `pGain`,
`iGain`, `dGain` as they were. -/
theorem resetErrors_zeroes_state_and_keeps_parameters (s : PID) :
    (resetErrors s).value = 0 ∧ (resetErrors s).previousValue = 0
      ∧ (resetErrors s).target = 0 ∧ (resetErrors s).pError = 0
      ∧ (resetErrors s).iError = 0 ∧ (resetErrors s).dError = 0
      ∧ (∀ i : Fin 4, (resetErrors s).previousErrors i = 0)
      ∧ (resetErrors s).interval = s.interval ∧ (resetErrors s).pGain = s.pGain
      ∧ (resetErrors s).iGain = s.iGain ∧ (resetErrors s).dGain = s.dGain := by
  rw [resetErrors_eq]
  exact ⟨rfl, rfl, rfl, rfl, rfl, rfl, fun _ => rfl, rfl, rfl, rfl, rfl⟩

/-- Claim C7: whatever the storage held, the constructor yields a controller
that stores exactly the four parameters given, with `value`, `previousValue`,
`target`, `pError`, `iError`, `dError` and the four history slots at 0; its
`getOutput` is 0. -/
theorem ctor_stores_parameters_and_zeroes_state (storage : PID) (interval : Int)
    (pGain iGain dGain : ℚ) :
    (ctor storage interval pGain iGain dGain).interval = interval
      ∧ (ctor storage interval pGain iGain dGain).pGain = pGain
      ∧ (ctor storage interval pGain iGain dGain).iGain = iGain
      ∧ (ctor storage interval pGain iGain dGain).dGain = dGain
      ∧ (ctor storage interval pGain iGain dGain).value = 0
      ∧ (ctor storage interval pGain iGain dGain).previousValue = 0
      ∧ (ctor storage interval pGain iGain dGain).target = 0
      ∧ (ctor storage interval pGain iGain dGain).pError = 0
      ∧ (ctor storage interval pGain iGain dGain).iError = 0
      ∧ (ctor storage interval pGain iGain dGain).dError = 0
      ∧ (∀ i : Fin 4, (ctor storage interval pGain iGain dGain).previousErrors i = 0)
      ∧ (getOutput (ctor storage interval pGain iGain dGain)).1 = 0 := by
  rw [ctor_eq]
  refine ⟨rfl, rfl, rfl, rfl, rfl, rfl, rfl, rfl, rfl, rfl, fun _ => rfl, ?_⟩
  simp [getOutput]

/-- Claim C8: a controller constructed with `(interval, pGain, iGain, dGain)`
still holds exactly these four parameters after any finite sequence of
`update`, `resetErrors` and `getOutput` calls with any arguments. -/
theorem parameters_never_change (storage : PID) (interval : Int) (pGain iGain dGain : ℚ)
    (calls : List Call) :
    (run (ctor storage interval pGain iGain dGain) calls).interval = interval
      ∧ (run (ctor storage interval pGain iGain dGain) calls).pGain = pGain
      ∧ (run (ctor storage interval pGain iGain dGain) calls).iGain = iGain
      ∧ (run (ctor storage interval pGain iGain dGain) calls).dGain = dGain := by
  have h := run_parameters calls (ctor storage interval pGain iGain dGain)
  rw [ctor_eq] at h ⊢
  exact h

/-- Claim C9: for any controller, with any gains and any interval, and after
any finite sequence of earlier calls, `resetErrors` followed by `getOutput`
returns exactly 0. -/
theorem getOutput_after_resetErrors_is_zero (s : PID) (calls : List Call) :
    (getOutput (resetErrors (run s calls))).1 = 0 := by
  rw [resetErrors_eq]
  simp [getOutput]

end PID

namespace PID

/-- Claim C12: derivative with insufficient history.  For a fresh controller
and a sequence of updates with errors `e_k = t k - v k`, `dError` after the
`n`-th update is `(e_{n-1} + 3*e_{n-2} - 3*e_{n-3} - e_{n-4}) / 6` with `e_j`
read as 0 for `j < 1`: it is 0 after the first update, `e_1/6` after the
second, `(e_2 + 3*e_1)/6` after the third and `(e_3 + 3*e_2 - 3*e_1)/6` after
the fourth. -/
theorem derivative_with_insufficient_history (c : PID) (hc : Fresh c) (v t : ℕ → ℚ) :
    (∀ n : ℕ, 1 ≤ n →
        (afterUpdates c v t n).dError
          = (errorAt v t ((n : ℤ) - 1) + 3 * errorAt v t ((n : ℤ) - 2)
              - 3 * errorAt v t ((n : ℤ) - 3) - errorAt v t ((n : ℤ) - 4)) / 6)
      ∧ (afterUpdates c v t 1).dError = 0
      ∧ (afterUpdates c v t 2).dError = (t 1 - v 1) / 6
      ∧ (afterUpdates c v t 3).dError = ((t 2 - v 2) + 3 * (t 1 - v 1)) / 6
      ∧ (afterUpdates c v t 4).dError
          = ((t 3 - v 3) + 3 * (t 2 - v 2) - 3 * (t 1 - v 1)) / 6 := by
  have key : ∀ m : ℕ, (afterUpdates c v t (m + 1)).dError
      = (errorAt v t ((m : ℤ) - 0) + 3 * errorAt v t ((m : ℤ) - 1)
          - 3 * errorAt v t ((m : ℤ) - 2) - errorAt v t ((m : ℤ) - 3)) / 6 := by
    intro m
    rw [afterUpdates_succ]
    have h0 := hc.history v t m 0
    have h1 := hc.history v t m 1
    have h2 := hc.history v t m 2
    have h3 := hc.history v t m 3
    simp only [Fin.val_zero, Fin.val_one, Fin.val_two, Nat.cast_zero, Nat.cast_one,
      Nat.cast_ofNat] at h0 h1 h2 h3
    have h3v : ((3 : Fin 4).val : ℤ) = 3 := rfl
    rw [h3v] at h3
    show ((afterUpdates c v t m).previousErrors 0 + 3 * (afterUpdates c v t m).previousErrors 1
        - 3 * (afterUpdates c v t m).previousErrors 2
        - (afterUpdates c v t m).previousErrors 3) / 6 = _
    rw [h0, h1, h2, h3]
  refine ⟨fun n hn => ?_, ?_, ?_, ?_, ?_⟩
  · obtain ⟨m, rfl⟩ : ∃ m, n = m + 1 := ⟨n - 1, by omega⟩
    rw [key m]
    have e0 : ((m + 1 : ℕ) : ℤ) - 1 = (m : ℤ) - 0 := by push_cast; ring
    have e1 : ((m + 1 : ℕ) : ℤ) - 2 = (m : ℤ) - 1 := by push_cast; ring
    have e2 : ((m + 1 : ℕ) : ℤ) - 3 = (m : ℤ) - 2 := by push_cast; ring
    have e3 : ((m + 1 : ℕ) : ℤ) - 4 = (m : ℤ) - 3 := by push_cast; ring
    rw [e0, e1, e2, e3]
  · rw [key 0, errorAt_of_nonpos _ _ _ (by norm_num), errorAt_of_nonpos _ _ _ (by norm_num),
      errorAt_of_nonpos _ _ _ (by norm_num), errorAt_of_nonpos _ _ _ (by norm_num)]
    norm_num
  · rw [key 1, errorAt_of_pos v t _ 1 (by norm_num) le_rfl,
      errorAt_of_nonpos _ _ _ (by norm_num), errorAt_of_nonpos _ _ _ (by norm_num),
      errorAt_of_nonpos _ _ _ (by norm_num)]
    ring
  · rw [key 2, errorAt_of_pos v t _ 2 (by norm_num) (by omega),
      errorAt_of_pos v t _ 1 (by norm_num) le_rfl,
      errorAt_of_nonpos _ _ _ (by norm_num), errorAt_of_nonpos _ _ _ (by norm_num)]
    ring
  · rw [key 3, errorAt_of_pos v t _ 3 (by norm_num) (by omega),
      errorAt_of_pos v t _ 2 (by norm_num) (by omega),
      errorAt_of_pos v t _ 1 (by norm_num) le_rfl, errorAt_of_nonpos _ _ _ (by norm_num)]
    ring

/-- An instance of claim C12: a controller that was reset and then fed
`update(1, 5)` and `update(2, 9)` has `dError = (5 - 1) / 6 = 2/3`. -/
theorem derivative_with_insufficient_history_witness :
    Fresh (resetErrors ⟨5, 7, 8, 9, 1, 2, 3, 4, 5, 6, ![7, 8, 9, 10]⟩)
      ∧ (afterUpdates (resetErrors ⟨5, 7, 8, 9, 1, 2, 3, 4, 5, 6, ![7, 8, 9, 10]⟩)
            (fun k => (k : ℚ)) (fun k => 4 * (k : ℚ) + 1) 2).dError = 2 / 3 := by
  have hc : Fresh (resetErrors ⟨5, 7, 8, 9, 1, 2, 3, 4, 5, 6, ![7, 8, 9, 10]⟩) :=
    Or.inr ⟨_, rfl⟩
  refine ⟨hc, ?_⟩
  rw [(derivative_with_insufficient_history _ hc _ _).2.2.1]
  norm_num

end PID

namespace PID

/-- Claim C14: reset-then-replay.  Resetting a controller that was constructed
with `(interval, pGain, iGain, dGain)` and then put through any calls gives the
freshly constructed state again; hence replaying a sequence of updates after the
reset returns, after each update, the output of a freshly constructed
controller with the same parameters fed the same sequence. -/
theorem reset_then_replay (storage storage2 : PID) (interval : Int) (pGain iGain dGain : ℚ)
    (calls : List Call) :
    resetErrors (run (ctor storage interval pGain iGain dGain) calls)
        = ctor storage2 interval pGain iGain dGain
      ∧ ∀ (v t : ℕ → ℚ) (n : ℕ),
          (getOutput (afterUpdates
              (resetErrors (run (ctor storage interval pGain iGain dGain) calls)) v t n)).1
            = (getOutput (afterUpdates (ctor storage2 interval pGain iGain dGain) v t n)).1 := by
  have h : resetErrors (run (ctor storage interval pGain iGain dGain) calls)
      = ctor storage2 interval pGain iGain dGain := by
    have hp := run_parameters calls (ctor storage interval pGain iGain dGain)
    rw [resetErrors_eq, hp.1, hp.2.1, hp.2.2.1, hp.2.2.2, ctor_eq, ctor_eq]
  exact ⟨h, fun v t n => by rw [h]⟩

/-- Claim C15: the history holds the most recent proportional errors, newest
first.  For a fresh controller after `n` updates with errors `e_k = t k - v k`,
slot `i` holds `e_{n-i}` when `n - i >= 1` and 0 otherwise; and from any state
whatsoever, after `n >= 4` updates the history is `[e_n, e_{n-1}, e_{n-2},
e_{n-3}]`. -/
theorem history_holds_recent_errors (v t : ℕ → ℚ) (n : ℕ) :
    (∀ c : PID, Fresh c → ∀ i : Fin 4,
        (afterUpdates c v t n).previousErrors i
          = if 1 ≤ (n : ℤ) - (i.val : ℤ) then t (n - i.val) - v (n - i.val) else 0)
      ∧ (∀ s : PID, 4 ≤ n →
          List.ofFn (afterUpdates s v t n).previousErrors
            = [t n - v n, t (n - 1) - v (n - 1), t (n - 2) - v (n - 2),
                t (n - 3) - v (n - 3)]) := by
  refine ⟨fun c hc i => ?_, fun s hn => ?_⟩
  · rw [hc.history v t n i, errorAt]
    have hi : ((n : ℤ) - (i.val : ℤ)).toNat = n - i.val := by omega
    rw [hi]
  · obtain ⟨m, rfl⟩ : ∃ m, n = m + 4 := ⟨n - 4, by omega⟩
    rw [afterUpdates_history_add_four]
    rfl

/-- An instance of claim C15: five updates on a state with the history
`[7, 8, 9, 10]` leave the errors of the updates 5, 4, 3, 2 in the history, and
two updates on a constructed controller leave `[e_2, e_1, 0, 0]`. -/
theorem history_holds_recent_errors_witness :
    Fresh (ctor ⟨5, 7, 8, 9, 1, 2, 3, 4, 5, 6, ![7, 8, 9, 10]⟩ 3 1 1 1)
      ∧ (afterUpdates (ctor ⟨5, 7, 8, 9, 1, 2, 3, 4, 5, 6, ![7, 8, 9, 10]⟩ 3 1 1 1)
            (fun k => (k : ℚ)) (fun k => (k : ℚ) * (k : ℚ)) 2).previousErrors 1 = 0
      ∧ (afterUpdates (ctor ⟨5, 7, 8, 9, 1, 2, 3, 4, 5, 6, ![7, 8, 9, 10]⟩ 3 1 1 1)
            (fun k => (k : ℚ)) (fun k => (k : ℚ) * (k : ℚ)) 2).previousErrors 2 = 0
      ∧ 4 ≤ 5
      ∧ List.ofFn (afterUpdates ⟨5, 7, 8, 9, 1, 2, 3, 4, 5, 6, ![7, 8, 9, 10]⟩
            (fun k => (k : ℚ)) (fun k => (k : ℚ) * (k : ℚ)) 5).previousErrors
          = [20, 12, 6, 2] := by
  have hc : Fresh (ctor ⟨5, 7, 8, 9, 1, 2, 3, 4, 5, 6, ![7, 8, 9, 10]⟩ 3 1 1 1) :=
    Or.inl ⟨_, _, _, _, _, rfl⟩
  refine ⟨hc, ?_, ?_, by decide, ?_⟩
  · rw [(history_holds_recent_errors _ _ 2).1 _ hc 1]
    norm_num
  · rw [(history_holds_recent_errors _ _ 2).1 _ hc 2]
    norm_num
  · rw [(history_holds_recent_errors _ _ 5).2 _ (by decide)]
    norm_num

/-- Claim C16: the integral term follows the measurements only.  From any
state, two sequences of updates that feed the same measurements at every step,
with any targets, have the same `iError` after every step. -/
theorem iError_independent_of_targets (s : PID) (v t1 t2 : ℕ → ℚ) (n : ℕ) :
    (afterUpdates s v t1 n).iError = (afterUpdates s v t2 n).iError := by
  exact (afterUpdates_value_iError_congr s v t1 t2 n).2

end PID

namespace PID

/-- Claim C17, evaluated on the code: the comment on `calculateIError` and the
claim add the interval-scaled average of the current and the previous *error*,
which for a controller built with `(interval=2, pGain=0, iGain=1, dGain=0)` and
fed `update(4, 0)` is `((0 - 4) + 0) / 2 * 2 = -4`; the code adds the average
of the *measurements* and leaves `iError = 4`. -/
theorem iError_averages_measurements_not_errors :
    (update (ctor ⟨5, 7, 8, 9, 1, 2, 3, 4, 5, 6, ![7, 8, 9, 10]⟩ 2 0 1 0) 4 0).iError = 4
      ∧ (ctor ⟨5, 7, 8, 9, 1, 2, 3, 4, 5, 6, ![7, 8, 9, 10]⟩ 2 0 1 0).iError
          + (((0 - 4) + (ctor ⟨5, 7, 8, 9, 1, 2, 3, 4, 5, 6, ![7, 8, 9, 10]⟩ 2 0 1 0).pError) / 2)
            * ((ctor ⟨5, 7, 8, 9, 1, 2, 3, 4, 5, 6, ![7, 8, 9, 10]⟩ 2 0 1 0).interval : ℚ)
          = -4
      ∧ (update (ctor ⟨5, 7, 8, 9, 1, 2, 3, 4, 5, 6, ![7, 8, 9, 10]⟩ 2 0 1 0) 4 0).iError
          ≠ (ctor ⟨5, 7, 8, 9, 1, 2, 3, 4, 5, 6, ![7, 8, 9, 10]⟩ 2 0 1 0).iError
            + (((0 - 4) + (ctor ⟨5, 7, 8, 9, 1, 2, 3, 4, 5, 6, ![7, 8, 9, 10]⟩ 2 0 1 0).pError) / 2)
              * ((ctor ⟨5, 7, 8, 9, 1, 2, 3, 4, 5, 6, ![7, 8, 9, 10]⟩ 2 0 1 0).interval : ℚ) := by
  rw [update_eq, ctor_eq]
  norm_num

end PID

/-! ## The claims that depend on the arithmetic of doubles -/

namespace IEEE

namespace PID

open Dbl

/-- Claim C10, as amended: pure proportional response.  When `iGain` and
`dGain` are 0 and the integral and derivative terms are finite after
`update(v, t)` (neither has overflowed to an infinity or become a NaN),
`getOutput` after `update(v, t)` is the double product `pGain * (t - v)`,
whatever `pGain`, the interval and the earlier state are. -/
theorem pure_proportional_response_of_finite_terms (s : PID) (v t : Dbl)
    (hi : s.iGain = fin 0) (hd : s.dGain = fin 0)
    (hI : (update s v t).iError.IsFinite) (hD : (update s v t).dError.IsFinite) :
    (getOutput (update s v t)).1 = mul s.pGain (sub t v) := by
  have hi2 : (update s v t).iGain = fin 0 := by rw [update_eq_dbl]; exact hi
  have hd2 : (update s v t).dGain = fin 0 := by rw [update_eq_dbl]; exact hd
  rw [output_of_pGain_only _ hi2 hd2 hI hD, update_eq_dbl]

/-- The worked example of claim C10: built with `(interval=1, pGain=2, iGain=0,
dGain=0)` over storage holding arbitrary data, `update(3, 10)` leaves finite
integral and derivative terms and `getOutput` returns 14. -/
theorem pure_proportional_response_of_finite_terms_witness :
    (ctor ⟨5, fin 7, fin 8, fin 9, fin 1, fin 2, fin 3, fin 4, fin 5, fin 6,
        ![fin 7, fin 8, fin 9, fin 10]⟩ 1 (fin 2) (fin 0) (fin 0)).iGain = fin 0
      ∧ (ctor ⟨5, fin 7, fin 8, fin 9, fin 1, fin 2, fin 3, fin 4, fin 5, fin 6,
        ![fin 7, fin 8, fin 9, fin 10]⟩ 1 (fin 2) (fin 0) (fin 0)).dGain = fin 0
      ∧ (update (ctor ⟨5, fin 7, fin 8, fin 9, fin 1, fin 2, fin 3, fin 4, fin 5, fin 6,
        ![fin 7, fin 8, fin 9, fin 10]⟩ 1 (fin 2) (fin 0) (fin 0)) (fin 3) (fin 10)).iError
          = fin (3 / 2)
      ∧ (update (ctor ⟨5, fin 7, fin 8, fin 9, fin 1, fin 2, fin 3, fin 4, fin 5, fin 6,
        ![fin 7, fin 8, fin 9, fin 10]⟩ 1 (fin 2) (fin 0) (fin 0)) (fin 3) (fin 10)).dError
          = fin 0
      ∧ (getOutput (update (ctor ⟨5, fin 7, fin 8, fin 9, fin 1, fin 2, fin 3, fin 4, fin 5,
        fin 6, ![fin 7, fin 8, fin 9, fin 10]⟩ 1 (fin 2) (fin 0) (fin 0)) (fin 3) (fin 10))).1
          = fin 14 := by
  have h3 : IsRep 3 := by simpa using isRep_intCast 3 (by norm_num)
  have h32 : IsRep (3 / 2) :=
    isRep_of_bits _ 3 (-1) 2 (by norm_num) (by norm_num) (by norm_num) (by norm_num)
      (by norm_num)
  have h7 : IsRep 7 := by simpa using isRep_intCast 7 (by norm_num)
  have h14 : IsRep 14 := by simpa using isRep_intCast 14 (by norm_num)
  have hI : (update (ctor ⟨5, fin 7, fin 8, fin 9, fin 1, fin 2, fin 3, fin 4, fin 5, fin 6,
        ![fin 7, fin 8, fin 9, fin 10]⟩ 1 (fin 2) (fin 0) (fin 0)) (fin 3) (fin 10)).iError
      = fin (3 / 2) := by
    rw [ctor_eq_dbl, update_eq_dbl]
    show add (fin 0) (mul (div (add (fin 3) (fin 0)) (fin 2)) (ofInt 1)) = fin (3 / 2)
    rw [add_zero_of_isDouble (fin 3) h3, div_fin_fin 3 2 (by norm_num), rnd_of_isRep _ h32,
      ofInt_of_lt 1 (by norm_num), mul_fin_fin]
    norm_num
    rw [rnd_of_isRep _ h32]
    exact zero_add_of_isDouble _ h32
  have hD : (update (ctor ⟨5, fin 7, fin 8, fin 9, fin 1, fin 2, fin 3, fin 4, fin 5, fin 6,
        ![fin 7, fin 8, fin 9, fin 10]⟩ 1 (fin 2) (fin 0) (fin 0)) (fin 3) (fin 10)).dError
      = fin 0 := by
    rw [ctor_eq_dbl, update_eq_dbl]
    exact derivative_of_zeros
  refine ⟨by rw [ctor_eq_dbl], by rw [ctor_eq_dbl], hI, hD, ?_⟩
  rw [pure_proportional_response_of_finite_terms _ _ _ (by rw [ctor_eq_dbl]) (by rw [ctor_eq_dbl])
    (by rw [hI]; trivial) (by rw [hD]; trivial), ctor_eq_dbl]
  show mul (fin 2) (sub (fin 10) (fin 3)) = fin 14
  rw [sub_fin_fin, show (10 : ℚ) - 3 = 7 by norm_num, rnd_of_isRep _ h7, mul_fin_fin,
    show (2 : ℚ) * 7 = 14 by norm_num, rnd_of_isRep _ h14]

/-- Claim C10 as stated fails on the code: a controller built with
`(interval=10, pGain=1, iGain=0, dGain=0)` and fed `update(2^1023, 0)` has its
integral term overflow to `+inf`, so `getOutput` returns `0 * inf = NaN`, not
`pGain * (t - v) = -2^1023`. -/
theorem pure_proportional_response_counterexample :
    (ctor ⟨5, fin 7, fin 8, fin 9, fin 1, fin 2, fin 3, fin 4, fin 5, fin 6,
        ![fin 7, fin 8, fin 9, fin 10]⟩ 10 (fin 1) (fin 0) (fin 0)).iGain = fin 0
      ∧ (ctor ⟨5, fin 7, fin 8, fin 9, fin 1, fin 2, fin 3, fin 4, fin 5, fin 6,
        ![fin 7, fin 8, fin 9, fin 10]⟩ 10 (fin 1) (fin 0) (fin 0)).dGain = fin 0
      ∧ IsRep (2 ^ 1023)
      ∧ (update (ctor ⟨5, fin 7, fin 8, fin 9, fin 1, fin 2, fin 3, fin 4, fin 5, fin 6,
        ![fin 7, fin 8, fin 9, fin 10]⟩ 10 (fin 1) (fin 0) (fin 0))
          (fin (2 ^ 1023)) (fin 0)).iError = inf false
      ∧ (getOutput (update (ctor ⟨5, fin 7, fin 8, fin 9, fin 1, fin 2, fin 3, fin 4, fin 5,
        fin 6, ![fin 7, fin 8, fin 9, fin 10]⟩ 10 (fin 1) (fin 0) (fin 0))
          (fin (2 ^ 1023)) (fin 0))).1 = nan
      ∧ mul (fin 1) (sub (fin 0) (fin (2 ^ 1023))) = fin (-(2 ^ 1023))
      ∧ (getOutput (update (ctor ⟨5, fin 7, fin 8, fin 9, fin 1, fin 2, fin 3, fin 4, fin 5,
        fin 6, ![fin 7, fin 8, fin 9, fin 10]⟩ 10 (fin 1) (fin 0) (fin 0))
          (fin (2 ^ 1023)) (fin 0))).1
          ≠ mul (ctor ⟨5, fin 7, fin 8, fin 9, fin 1, fin 2, fin 3, fin 4, fin 5,
        fin 6, ![fin 7, fin 8, fin 9, fin 10]⟩ 10 (fin 1) (fin 0) (fin 0)).pGain
            (sub (fin 0) (fin (2 ^ 1023))) := by
  have hA : IsRep ((2 : ℚ) ^ 1023) :=
    isRep_of_bits _ 1 1023 1 (by norm_num) (by norm_num) (by norm_num) (by norm_num)
      (by rw [zpow_ofNat, Int.cast_one, one_mul])
  have hB : IsRep ((2 : ℚ) ^ 1022) :=
    isRep_of_bits _ 1 1022 1 (by norm_num) (by norm_num) (by norm_num) (by norm_num)
      (by rw [zpow_ofNat, Int.cast_one, one_mul])
  have hhalf : (2 : ℚ) ^ 1023 / 2 = 2 ^ 1022 := by
    rw [pow_succ]
    field_simp
  have hover : (2 : ℚ) ^ 1024 ≤ |(2 : ℚ) ^ 1022 * 10| := by
    rw [abs_of_pos (by positivity), show (2 : ℚ) ^ 1024 = 2 ^ 1022 * 4 by
      rw [pow_succ, pow_succ]; ring]
    exact mul_le_mul_of_nonneg_left (by norm_num) (by positivity)
  have hI : add (fin 0) (mul (div (add (fin (2 ^ 1023)) (fin 0)) (fin 2)) (ofInt 10))
      = inf false := by
    rw [add_zero_of_isDouble (fin (2 ^ 1023)) hA, div_fin_fin _ 2 (by norm_num), hhalf, rnd_of_isRep _ hB,
      ofInt_of_lt 10 (by norm_num), mul_fin_fin, Int.cast_ofNat, rnd_overflow _ hover,
      decide_eq_false (not_lt.mpr (by positivity))]
    rfl
  have hclaim : mul (fin 1) (sub (fin 0) (fin (2 ^ 1023))) = fin (-(2 ^ 1023)) := by
    rw [sub_fin_fin, zero_sub, rnd_of_isRep _ (isRep_neg _ hA)]
    exact one_mul_of_isDouble (fin (-(2 ^ 1023))) (isRep_neg _ hA)
  have hout : (getOutput (update (ctor ⟨5, fin 7, fin 8, fin 9, fin 1, fin 2, fin 3, fin 4,
        fin 5, fin 6, ![fin 7, fin 8, fin 9, fin 10]⟩ 10 (fin 1) (fin 0) (fin 0))
          (fin (2 ^ 1023)) (fin 0))).1 = nan := by
    rw [ctor_eq_dbl, update_eq_dbl]
    show add (add (mul (fin 1) (sub (fin 0) (fin (2 ^ 1023))))
      (mul (fin 0) (add (fin 0) (mul (div (add (fin (2 ^ 1023)) (fin 0)) (fin 2))
        (ofInt 10))))) _ = nan
    rw [hI]
    have hz : mul (fin 0) (inf false) = nan := by simp [mul]
    rw [hz, add_nan, nan_add]
  refine ⟨by rw [ctor_eq_dbl], by rw [ctor_eq_dbl], hA, ?_, hout, hclaim, ?_⟩
  · rw [ctor_eq_dbl, update_eq_dbl]
    exact hI
  · rw [hout, ctor_eq_dbl]
    show nan ≠ mul (fin 1) (sub (fin 0) (fin (2 ^ 1023)))
    rw [hclaim]
    exact fun h => Dbl.noConfusion h

/-- Claim C11, as amended: integral accumulation.  For a fresh controller (just
constructed or just reset) and a sequence of `n` updates with the measurements
`v 1 .. v n`, `v 0 = 0`, and any targets, if every increment of the integral
term is computed exactly (the double sum of the exact `iError` so far and
`((v (k+1) + v k) / 2) * interval` is the exact sum), then `iError` after the
`n`-th update is `interval * sum_{k=1..n} (v k + v (k-1)) / 2`; with
`pGain = dGain = 0`, `iGain = 1` and finite proportional and derivative terms
this is also what `getOutput` returns. -/
theorem integral_accumulation_of_exact_increments (c : PID) (hc : Fresh c) (v : ℕ → ℚ)
    (t : ℕ → Dbl) (hv : v 0 = 0) (n : ℕ)
    (hex : ∀ k : ℕ, k < n →
      add (fin (integralClosedForm c.interval v k))
          (mul (div (add (fin (v (k + 1))) (fin (v k))) (fin 2)) (ofInt c.interval))
        = fin (integralClosedForm c.interval v (k + 1))) :
    (afterUpdates c (fun k => fin (v k)) t n).iError = fin (integralClosedForm c.interval v n)
      ∧ (c.pGain = fin 0 → c.iGain = fin 1 → c.dGain = fin 0 →
          (afterUpdates c (fun k => fin (v k)) t n).pError.IsFinite →
          (afterUpdates c (fun k => fin (v k)) t n).dError.IsFinite →
          (getOutput (afterUpdates c (fun k => fin (v k)) t n)).1
            = fin (integralClosedForm c.interval v n)) := by
  have hval : c.value = fin 0 := by rw [hc.eq_zeroed_dbl]
  have hie : c.iError = fin 0 := by rw [hc.eq_zeroed_dbl]
  have inv : ∀ m : ℕ, m ≤ n →
      (afterUpdates c (fun k => fin (v k)) t m).value = fin (v m)
        ∧ (afterUpdates c (fun k => fin (v k)) t m).iError
            = fin (integralClosedForm c.interval v m) := by
    intro m
    induction m with
    | zero =>
      intro _
      refine ⟨by rw [hv]; exact hval, ?_⟩
      show c.iError = _
      rw [hie]
      simp [integralClosedForm]
    | succ m ih =>
      intro hm
      have ihm := ih (by omega)
      rw [afterUpdates_succ_dbl]
      refine ⟨rfl, ?_⟩
      show add (afterUpdates c (fun k => fin (v k)) t m).iError
          (mul (div (add (fin (v (m + 1))) (afterUpdates c (fun k => fin (v k)) t m).value)
            (fin 2)) (ofInt (afterUpdates c (fun k => fin (v k)) t m).interval)) = _
      rw [ihm.1, ihm.2, (afterUpdates_parameters_dbl c _ t m).1]
      exact hex m (by omega)
  have hI := (inv n le_rfl).2
  refine ⟨hI, fun hp hi hd hP hD => ?_⟩
  have hpar := afterUpdates_parameters_dbl c (fun k => fin (v k)) t n
  rw [output_of_iGain_only _ (hpar.2.1.trans hp) (hpar.2.2.2.trans hd) hP hD, hpar.2.2.1, hi, hI]
  apply one_mul_of_isDouble
  show IsRep (integralClosedForm c.interval v n)
  rcases n with _ | m
  · simpa [integralClosedForm] using isRep_zero
  · have h := isDouble_add (fin (integralClosedForm c.interval v m))
      (mul (div (add (fin (v (m + 1))) (fin (v m))) (fin 2)) (ofInt c.interval))
    rw [hex m (by omega)] at h
    exact h

/-- The worked example of claim C11: built with `(interval=2, pGain=0, iGain=1,
dGain=0)`, a first `update(4, 0)` gives the output 4 and a second one 12; both
increments of the integral term are exact. -/
theorem integral_accumulation_of_exact_increments_witness :
    Fresh (ctor ⟨5, fin 7, fin 8, fin 9, fin 1, fin 2, fin 3, fin 4, fin 5, fin 6,
        ![fin 7, fin 8, fin 9, fin 10]⟩ 2 (fin 0) (fin 1) (fin 0))
      ∧ (fun k : ℕ => if k = 0 then (0 : ℚ) else 4) 0 = 0
      ∧ (∀ k : ℕ, k < 2 →
          add (fin (integralClosedForm 2 (fun k => if k = 0 then 0 else 4) k))
              (mul (div (add (fin ((fun k : ℕ => if k = 0 then (0 : ℚ) else 4) (k + 1)))
                (fin ((fun k : ℕ => if k = 0 then (0 : ℚ) else 4) k))) (fin 2)) (ofInt 2))
            = fin (integralClosedForm 2 (fun k => if k = 0 then 0 else 4) (k + 1)))
      ∧ (getOutput (afterUpdates (ctor ⟨5, fin 7, fin 8, fin 9, fin 1, fin 2, fin 3, fin 4,
          fin 5, fin 6, ![fin 7, fin 8, fin 9, fin 10]⟩ 2 (fin 0) (fin 1) (fin 0))
            (fun k => fin (if k = 0 then 0 else 4)) (fun _ => fin 0) 1)).1 = fin 4
      ∧ (getOutput (afterUpdates (ctor ⟨5, fin 7, fin 8, fin 9, fin 1, fin 2, fin 3, fin 4,
          fin 5, fin 6, ![fin 7, fin 8, fin 9, fin 10]⟩ 2 (fin 0) (fin 1) (fin 0))
            (fun k => fin (if k = 0 then 0 else 4)) (fun _ => fin 0) 2)).1 = fin 12 := by
  have hc : Fresh (ctor ⟨5, fin 7, fin 8, fin 9, fin 1, fin 2, fin 3, fin 4, fin 5, fin 6,
        ![fin 7, fin 8, fin 9, fin 10]⟩ 2 (fin 0) (fin 1) (fin 0)) :=
    Or.inl ⟨_, _, _, _, _, rfl⟩
  have r0 : rnd 0 = fin 0 := rnd_zero
  have r2 : rnd 2 = fin 2 := by simpa using rnd_of_isRep _ (isRep_intCast 2 (by norm_num))
  have r4 : rnd 4 = fin 4 := by simpa using rnd_of_isRep _ (isRep_intCast 4 (by norm_num))
  have r8 : rnd 8 = fin 8 := by simpa using rnd_of_isRep _ (isRep_intCast 8 (by norm_num))
  have r12 : rnd 12 = fin 12 := by simpa using rnd_of_isRep _ (isRep_intCast 12 (by norm_num))
  have rm4 : rnd (-4) = fin (-4) := by
    simpa using rnd_of_isRep _ (isRep_intCast (-4) (by norm_num))
  have hS0 : integralClosedForm 2 (fun k => if k = 0 then 0 else 4) 0 = 0 := by
    simp [integralClosedForm]
  have hS1 : integralClosedForm 2 (fun k => if k = 0 then 0 else 4) 1 = 4 := by
    norm_num [integralClosedForm]
  have hS2 : integralClosedForm 2 (fun k => if k = 0 then 0 else 4) 2 = 12 := by
    norm_num [integralClosedForm, Finset.sum_Icc_succ_top]
  have hex : ∀ k : ℕ, k < 2 →
      add (fin (integralClosedForm 2 (fun k => if k = 0 then 0 else 4) k))
          (mul (div (add (fin ((fun k : ℕ => if k = 0 then (0 : ℚ) else 4) (k + 1)))
            (fin ((fun k : ℕ => if k = 0 then (0 : ℚ) else 4) k))) (fin 2)) (ofInt 2))
        = fin (integralClosedForm 2 (fun k => if k = 0 then 0 else 4) (k + 1)) := by
    intro k hk
    interval_cases k
    · rw [hS0, hS1]
      norm_num [add, mul, div, ofInt, r0, r2, r4]
    · rw [hS1, hS2]
      norm_num [add, mul, div, ofInt, r0, r2, r4, r8, r12]
  have hfin : (rnd (-(2 / 3))).IsFinite :=
    isFinite_rnd _ (lt_of_lt_of_le (by norm_num [abs_lt]) (one_le_pow₀ (by norm_num)))
  refine ⟨hc, rfl, hex, ?_, ?_⟩
  · rw [(integral_accumulation_of_exact_increments _ hc _ (fun _ => fin 0) rfl 1
      (fun k hk => hex k (by omega))).2 (by rw [ctor_eq_dbl]) (by rw [ctor_eq_dbl])
      (by rw [ctor_eq_dbl]) ?_ ?_]
    · exact congrArg fin hS1
    · simp only [afterUpdates, update_eq_dbl, ctor_eq_dbl]
      norm_num [sub, neg, add, rm4, IsFinite]
    · simp only [afterUpdates, update_eq_dbl, ctor_eq_dbl]
      rw [derivative_of_zeros]
      trivial
  · rw [(integral_accumulation_of_exact_increments _ hc _ (fun _ => fin 0) rfl 2 hex).2
      (by rw [ctor_eq_dbl]) (by rw [ctor_eq_dbl]) (by rw [ctor_eq_dbl]) ?_ ?_]
    · exact congrArg fin hS2
    · simp only [afterUpdates, update_eq_dbl, ctor_eq_dbl]
      norm_num [sub, neg, add, rm4, IsFinite]
    · simp only [afterUpdates, update_eq_dbl, ctor_eq_dbl]
      norm_num [sub, neg, add, mul, div, rm4, r0]
      exact hfin

/-- Claim C11 as stated fails on the code.  A controller built with
`(interval=1, pGain=0, iGain=1, dGain=0)` and fed `update(-2^1023, 2^1023)` has
its proportional term overflow to `+inf`, so `getOutput` returns
`0 * inf = NaN` where the claim gives `-2^1022`; and the same controller fed
`update(2^1023, 0)` twice has `iError = +inf` where the claim gives the finite
double `3 * 2^1022`. -/
theorem integral_accumulation_counterexample :
    Fresh (ctor ⟨5, fin 7, fin 8, fin 9, fin 1, fin 2, fin 3, fin 4, fin 5, fin 6,
        ![fin 7, fin 8, fin 9, fin 10]⟩ 1 (fin 0) (fin 1) (fin 0))
      ∧ IsRep (2 ^ 1023)
      ∧ (getOutput (afterUpdates (ctor ⟨5, fin 7, fin 8, fin 9, fin 1, fin 2, fin 3, fin 4,
          fin 5, fin 6, ![fin 7, fin 8, fin 9, fin 10]⟩ 1 (fin 0) (fin 1) (fin 0))
            (fun k => fin (if k = 0 then 0 else -(2 ^ 1023))) (fun _ => fin (2 ^ 1023)) 1)).1
          = nan
      ∧ integralClosedForm 1 (fun k => if k = 0 then 0 else -(2 ^ 1023)) 1 = -(2 ^ 1022)
      ∧ (getOutput (afterUpdates (ctor ⟨5, fin 7, fin 8, fin 9, fin 1, fin 2, fin 3, fin 4,
          fin 5, fin 6, ![fin 7, fin 8, fin 9, fin 10]⟩ 1 (fin 0) (fin 1) (fin 0))
            (fun k => fin (if k = 0 then 0 else -(2 ^ 1023))) (fun _ => fin (2 ^ 1023)) 1)).1
          ≠ fin (integralClosedForm 1 (fun k => if k = 0 then 0 else -(2 ^ 1023)) 1)
      ∧ (afterUpdates (ctor ⟨5, fin 7, fin 8, fin 9, fin 1, fin 2, fin 3, fin 4,
          fin 5, fin 6, ![fin 7, fin 8, fin 9, fin 10]⟩ 1 (fin 0) (fin 1) (fin 0))
            (fun k => fin (if k = 0 then 0 else 2 ^ 1023)) (fun _ => fin 0) 2).iError
          = inf false
      ∧ integralClosedForm 1 (fun k => if k = 0 then 0 else 2 ^ 1023) 2 = 3 * 2 ^ 1022
      ∧ IsRep (3 * 2 ^ 1022)
      ∧ (afterUpdates (ctor ⟨5, fin 7, fin 8, fin 9, fin 1, fin 2, fin 3, fin 4,
          fin 5, fin 6, ![fin 7, fin 8, fin 9, fin 10]⟩ 1 (fin 0) (fin 1) (fin 0))
            (fun k => fin (if k = 0 then 0 else 2 ^ 1023)) (fun _ => fin 0) 2).iError
          ≠ fin (integralClosedForm 1 (fun k => if k = 0 then 0 else 2 ^ 1023) 2) := by
  have hA : IsRep ((2 : ℚ) ^ 1023) :=
    isRep_of_bits _ 1 1023 1 (by norm_num) (by norm_num) (by norm_num) (by norm_num)
      (by rw [zpow_ofNat, Int.cast_one, one_mul])
  have hB : IsRep ((2 : ℚ) ^ 1022) :=
    isRep_of_bits _ 1 1022 1 (by norm_num) (by norm_num) (by norm_num) (by norm_num)
      (by rw [zpow_ofNat, Int.cast_one, one_mul])
  have hC : IsRep (3 * (2 : ℚ) ^ 1022) :=
    isRep_of_bits _ 3 1022 2 (by norm_num) (by norm_num) (by norm_num) (by norm_num)
      (by rw [zpow_ofNat]; norm_num)
  have hhalf : (2 : ℚ) ^ 1023 / 2 = 2 ^ 1022 := by
    rw [pow_succ]
    field_simp
  have hdouble : (2 : ℚ) ^ 1023 + 2 ^ 1023 = 2 ^ 1024 := by
    rw [pow_succ 2 1023]
    ring
  have hsum : add (fin (2 ^ 1023)) (fin (2 ^ 1023)) = inf false := by
    rw [add_fin_fin, hdouble, rnd_overflow _ (by rw [abs_of_pos (by positivity)]),
      decide_eq_false (not_lt.mpr (by positivity))]
  have hP : sub (fin (2 ^ 1023)) (fin (-(2 ^ 1023))) = inf false := by
    rw [sub_fin_fin, sub_neg_eq_add]
    exact hsum
  have hz : mul (fin 0) (inf false) = nan := by simp [mul]
  have hout : (getOutput (afterUpdates (ctor ⟨5, fin 7, fin 8, fin 9, fin 1, fin 2, fin 3,
        fin 4, fin 5, fin 6, ![fin 7, fin 8, fin 9, fin 10]⟩ 1 (fin 0) (fin 1) (fin 0))
          (fun k => fin (if k = 0 then 0 else -(2 ^ 1023))) (fun _ => fin (2 ^ 1023)) 1)).1
      = nan := by
    simp only [afterUpdates, update_eq_dbl, ctor_eq_dbl, getOutput, zero_add, one_ne_zero,
      if_false]
    rw [hP, hz, nan_add, nan_add]
  have hS1 : integralClosedForm 1 (fun k => if k = 0 then 0 else -(2 ^ 1023)) 1
      = -(2 ^ 1022) := by
    simp only [integralClosedForm, Finset.Icc_self, Finset.sum_singleton, one_ne_zero,
      if_false, Nat.sub_self, if_true, add_zero, Int.cast_one, one_mul, neg_div, hhalf]
  have hI1 : add (fin 0) (mul (div (add (fin (2 ^ 1023)) (fin 0)) (fin 2)) (ofInt 1))
      = fin (2 ^ 1022) := by
    rw [add_zero_of_isDouble (fin (2 ^ 1023)) hA, div_fin_fin _ 2 (by norm_num), hhalf,
      rnd_of_isRep _ hB, ofInt_of_lt 1 (by norm_num), mul_fin_fin, Int.cast_one, mul_one,
      rnd_of_isRep _ hB]
    exact zero_add_of_isDouble _ hB
  have hI2 : add (fin (2 ^ 1022)) (mul (div (add (fin (2 ^ 1023)) (fin (2 ^ 1023))) (fin 2))
      (ofInt 1)) = inf false := by
    rw [hsum, ofInt_of_lt 1 (by norm_num)]
    norm_num [div, mul, add]
  have hie : (afterUpdates (ctor ⟨5, fin 7, fin 8, fin 9, fin 1, fin 2, fin 3, fin 4,
        fin 5, fin 6, ![fin 7, fin 8, fin 9, fin 10]⟩ 1 (fin 0) (fin 1) (fin 0))
          (fun k => fin (if k = 0 then 0 else 2 ^ 1023)) (fun _ => fin 0) 2).iError
      = inf false := by
    simp only [afterUpdates, update_eq_dbl, ctor_eq_dbl, zero_add, one_ne_zero, if_false,
      Nat.reduceAdd, OfNat.ofNat_ne_zero]
    rw [hI1]
    exact hI2
  have hS2 : integralClosedForm 1 (fun k => if k = 0 then 0 else 2 ^ 1023) 2
      = 3 * 2 ^ 1022 := by
    have h1 : integralClosedForm 1 (fun k => if k = 0 then 0 else 2 ^ 1023) 2
        = ((2 : ℚ) ^ 1023 + 0) / 2 + (2 ^ 1023 + 2 ^ 1023) / 2 := by
      norm_num [integralClosedForm, Finset.sum_Icc_succ_top]
    rw [h1, pow_succ 2 1022]
    ring
  refine ⟨Or.inl ⟨_, _, _, _, _, rfl⟩, hA, hout, hS1, ?_, hie, hS2, hC, ?_⟩
  · rw [hout]
    exact fun h => Dbl.noConfusion h
  · rw [hie]
    exact fun h => Dbl.noConfusion h

/-- Claim C13, as amended: gain independence.  The error state (`pError`,
`iError`, `dError`, history) a freshly constructed controller reaches after a
sequence of updates is the same for all gains.  With the other two gains 0 and
the other two error terms finite, `getOutput` is the double product of the
remaining gain and its error term; hence gains `(c*g, 0, 0)` give `c` times the
output of gains `(g, 0, 0)` on the same sequence whenever the three products
`(c*g)*e`, `g*e` and `c*(g*e)` with the proportional error `e` are computed
exactly, and likewise for `iGain` with `iError` and for `dGain` with `dError`. -/
theorem gain_independence_up_to_rounding (storage1 storage2 : PID) (interval : Int)
    (v t : ℕ → Dbl) (n : ℕ) :
    (∀ p1 i1 d1 p2 i2 d2 : Dbl,
        (afterUpdates (ctor storage1 interval p1 i1 d1) v t n).pError
            = (afterUpdates (ctor storage2 interval p2 i2 d2) v t n).pError
          ∧ (afterUpdates (ctor storage1 interval p1 i1 d1) v t n).iError
            = (afterUpdates (ctor storage2 interval p2 i2 d2) v t n).iError
          ∧ (afterUpdates (ctor storage1 interval p1 i1 d1) v t n).dError
            = (afterUpdates (ctor storage2 interval p2 i2 d2) v t n).dError
          ∧ (afterUpdates (ctor storage1 interval p1 i1 d1) v t n).previousErrors
            = (afterUpdates (ctor storage2 interval p2 i2 d2) v t n).previousErrors)
      ∧ (∀ gain : Dbl,
          (afterUpdates (ctor storage2 interval (fin 0) (fin 0) (fin 0)) v t n).iError.IsFinite →
          (afterUpdates (ctor storage2 interval (fin 0) (fin 0) (fin 0)) v t n).dError.IsFinite →
          (getOutput (afterUpdates (ctor storage1 interval gain (fin 0) (fin 0)) v t n)).1
            = mul gain (afterUpdates (ctor storage2 interval (fin 0) (fin 0) (fin 0)) v t n).pError)
      ∧ (∀ gain : Dbl,
          (afterUpdates (ctor storage2 interval (fin 0) (fin 0) (fin 0)) v t n).pError.IsFinite →
          (afterUpdates (ctor storage2 interval (fin 0) (fin 0) (fin 0)) v t n).dError.IsFinite →
          (getOutput (afterUpdates (ctor storage1 interval (fin 0) gain (fin 0)) v t n)).1
            = mul gain (afterUpdates (ctor storage2 interval (fin 0) (fin 0) (fin 0)) v t n).iError)
      ∧ (∀ gain : Dbl,
          (afterUpdates (ctor storage2 interval (fin 0) (fin 0) (fin 0)) v t n).pError.IsFinite →
          (afterUpdates (ctor storage2 interval (fin 0) (fin 0) (fin 0)) v t n).iError.IsFinite →
          (getOutput (afterUpdates (ctor storage1 interval (fin 0) (fin 0) gain) v t n)).1
            = mul gain (afterUpdates (ctor storage2 interval (fin 0) (fin 0) (fin 0)) v t n).dError)
      ∧ (∀ c g e : ℚ,
          (afterUpdates (ctor storage2 interval (fin 0) (fin 0) (fin 0)) v t n).pError = fin e →
          (afterUpdates (ctor storage2 interval (fin 0) (fin 0) (fin 0)) v t n).iError.IsFinite →
          (afterUpdates (ctor storage2 interval (fin 0) (fin 0) (fin 0)) v t n).dError.IsFinite →
          mul (fin (c * g)) (fin e) = fin (c * g * e) → mul (fin g) (fin e) = fin (g * e) →
          mul (fin c) (fin (g * e)) = fin (c * (g * e)) →
          (getOutput (afterUpdates (ctor storage1 interval (fin (c * g)) (fin 0) (fin 0)) v t n)).1
            = mul (fin c)
                (getOutput (afterUpdates (ctor storage2 interval (fin g) (fin 0) (fin 0)) v t n)).1)
      ∧ (∀ c g e : ℚ,
          (afterUpdates (ctor storage2 interval (fin 0) (fin 0) (fin 0)) v t n).iError = fin e →
          (afterUpdates (ctor storage2 interval (fin 0) (fin 0) (fin 0)) v t n).pError.IsFinite →
          (afterUpdates (ctor storage2 interval (fin 0) (fin 0) (fin 0)) v t n).dError.IsFinite →
          mul (fin (c * g)) (fin e) = fin (c * g * e) → mul (fin g) (fin e) = fin (g * e) →
          mul (fin c) (fin (g * e)) = fin (c * (g * e)) →
          (getOutput (afterUpdates (ctor storage1 interval (fin 0) (fin (c * g)) (fin 0)) v t n)).1
            = mul (fin c)
                (getOutput (afterUpdates (ctor storage2 interval (fin 0) (fin g) (fin 0)) v t n)).1)
      ∧ (∀ c g e : ℚ,
          (afterUpdates (ctor storage2 interval (fin 0) (fin 0) (fin 0)) v t n).dError = fin e →
          (afterUpdates (ctor storage2 interval (fin 0) (fin 0) (fin 0)) v t n).pError.IsFinite →
          (afterUpdates (ctor storage2 interval (fin 0) (fin 0) (fin 0)) v t n).iError.IsFinite →
          mul (fin (c * g)) (fin e) = fin (c * g * e) → mul (fin g) (fin e) = fin (g * e) →
          mul (fin c) (fin (g * e)) = fin (c * (g * e)) →
          (getOutput (afterUpdates (ctor storage1 interval (fin 0) (fin 0) (fin (c * g))) v t n)).1
            = mul (fin c)
                (getOutput (afterUpdates (ctor storage2 interval (fin 0) (fin 0) (fin g)) v t n)).1)
      := by
  have key : ∀ (sa : PID) (p i d : Dbl),
      afterUpdates (ctor sa interval p i d) v t n
        = { afterUpdates (ctor storage2 interval (fin 0) (fin 0) (fin 0)) v t n with
            pGain := p, iGain := i, dGain := d } := by
    intro sa p i d
    rw [← afterUpdates_with_gains_dbl, ctor_eq_dbl, ctor_eq_dbl]
  have outP : ∀ (sa : PID) (gain : Dbl),
      (afterUpdates (ctor storage2 interval (fin 0) (fin 0) (fin 0)) v t n).iError.IsFinite →
      (afterUpdates (ctor storage2 interval (fin 0) (fin 0) (fin 0)) v t n).dError.IsFinite →
      (getOutput (afterUpdates (ctor sa interval gain (fin 0) (fin 0)) v t n)).1
        = mul gain (afterUpdates (ctor storage2 interval (fin 0) (fin 0) (fin 0)) v t n).pError := by
    intro sa gain hI hD
    rw [key sa gain (fin 0) (fin 0)]
    exact output_of_pGain_only _ rfl rfl hI hD
  have outI : ∀ (sa : PID) (gain : Dbl),
      (afterUpdates (ctor storage2 interval (fin 0) (fin 0) (fin 0)) v t n).pError.IsFinite →
      (afterUpdates (ctor storage2 interval (fin 0) (fin 0) (fin 0)) v t n).dError.IsFinite →
      (getOutput (afterUpdates (ctor sa interval (fin 0) gain (fin 0)) v t n)).1
        = mul gain (afterUpdates (ctor storage2 interval (fin 0) (fin 0) (fin 0)) v t n).iError := by
    intro sa gain hP hD
    rw [key sa (fin 0) gain (fin 0)]
    exact output_of_iGain_only _ rfl rfl hP hD
  have outD : ∀ (sa : PID) (gain : Dbl),
      (afterUpdates (ctor storage2 interval (fin 0) (fin 0) (fin 0)) v t n).pError.IsFinite →
      (afterUpdates (ctor storage2 interval (fin 0) (fin 0) (fin 0)) v t n).iError.IsFinite →
      (getOutput (afterUpdates (ctor sa interval (fin 0) (fin 0) gain) v t n)).1
        = mul gain (afterUpdates (ctor storage2 interval (fin 0) (fin 0) (fin 0)) v t n).dError := by
    intro sa gain hP hI
    rw [key sa (fin 0) (fin 0) gain]
    exact output_of_dGain_only _ rfl rfl hP hI
  refine ⟨fun p1 i1 d1 p2 i2 d2 => ?_, outP storage1, outI storage1, outD storage1,
    fun c g e he hI hD h1 h2 h3 => ?_, fun c g e he hP hD h1 h2 h3 => ?_,
    fun c g e he hP hI h1 h2 h3 => ?_⟩
  · rw [key storage1 p1 i1 d1, key storage2 p2 i2 d2]
    exact ⟨rfl, rfl, rfl, rfl⟩
  · rw [outP storage1 _ hI hD, outP storage2 _ hI hD, he, h1, h2, h3]
    congr 1
    ring
  · rw [outI storage1 _ hP hD, outI storage2 _ hP hD, he, h1, h2, h3]
    congr 1
    ring
  · rw [outD storage1 _ hP hI, outD storage2 _ hP hI, he, h1, h2, h3]
    congr 1
    ring

/-- An instance of claim C13: after `update(1, 3)` the proportional error is 2
and the other two terms are finite; the products `15 * 2`, `5 * 2` and `3 * 10`
are exact, and gains `(3*5, 0, 0)` give 3 times the output of gains
`(5, 0, 0)`. -/
theorem gain_independence_up_to_rounding_witness :
    (afterUpdates (ctor ⟨5, fin 7, fin 8, fin 9, fin 1, fin 2, fin 3, fin 4, fin 5, fin 6,
        ![fin 7, fin 8, fin 9, fin 10]⟩ 1 (fin 0) (fin 0) (fin 0))
          (fun _ => fin 1) (fun _ => fin 3) 1).pError = fin 2
      ∧ (afterUpdates (ctor ⟨5, fin 7, fin 8, fin 9, fin 1, fin 2, fin 3, fin 4, fin 5, fin 6,
        ![fin 7, fin 8, fin 9, fin 10]⟩ 1 (fin 0) (fin 0) (fin 0))
          (fun _ => fin 1) (fun _ => fin 3) 1).iError.IsFinite
      ∧ (afterUpdates (ctor ⟨5, fin 7, fin 8, fin 9, fin 1, fin 2, fin 3, fin 4, fin 5, fin 6,
        ![fin 7, fin 8, fin 9, fin 10]⟩ 1 (fin 0) (fin 0) (fin 0))
          (fun _ => fin 1) (fun _ => fin 3) 1).dError.IsFinite
      ∧ mul (fin (3 * 5)) (fin 2) = fin (3 * 5 * 2)
      ∧ mul (fin 5) (fin 2) = fin (5 * 2)
      ∧ mul (fin 3) (fin (5 * 2)) = fin (3 * (5 * 2))
      ∧ (getOutput (afterUpdates (ctor ⟨5, fin 7, fin 8, fin 9, fin 1, fin 2, fin 3, fin 4,
          fin 5, fin 6, ![fin 7, fin 8, fin 9, fin 10]⟩ 1 (fin (3 * 5)) (fin 0) (fin 0))
            (fun _ => fin 1) (fun _ => fin 3) 1)).1
          = mul (fin 3)
              (getOutput (afterUpdates (ctor ⟨5, fin 7, fin 8, fin 9, fin 1, fin 2, fin 3,
                fin 4, fin 5, fin 6, ![fin 7, fin 8, fin 9, fin 10]⟩ 1 (fin 5) (fin 0) (fin 0))
                  (fun _ => fin 1) (fun _ => fin 3) 1)).1 := by
  have r0 : rnd 0 = fin 0 := rnd_zero
  have r1 : rnd 1 = fin 1 := by simpa using rnd_of_isRep _ (isRep_intCast 1 (by norm_num))
  have r2 : rnd 2 = fin 2 := by simpa using rnd_of_isRep _ (isRep_intCast 2 (by norm_num))
  have r10 : rnd 10 = fin 10 := by simpa using rnd_of_isRep _ (isRep_intCast 10 (by norm_num))
  have r30 : rnd 30 = fin 30 := by simpa using rnd_of_isRep _ (isRep_intCast 30 (by norm_num))
  have rh : rnd (1 / 2) = fin (1 / 2) :=
    rnd_of_bits _ 1 (-1) 1 (by norm_num) (by norm_num) (by norm_num) (by norm_num)
      (by norm_num)
  have hE : (afterUpdates (ctor ⟨5, fin 7, fin 8, fin 9, fin 1, fin 2, fin 3, fin 4, fin 5,
        fin 6, ![fin 7, fin 8, fin 9, fin 10]⟩ 1 (fin 0) (fin 0) (fin 0))
          (fun _ => fin 1) (fun _ => fin 3) 1).pError = fin 2 := by
    simp only [afterUpdates, update_eq_dbl, ctor_eq_dbl]
    norm_num [sub, neg, add, r2]
  have hI : (afterUpdates (ctor ⟨5, fin 7, fin 8, fin 9, fin 1, fin 2, fin 3, fin 4, fin 5,
        fin 6, ![fin 7, fin 8, fin 9, fin 10]⟩ 1 (fin 0) (fin 0) (fin 0))
          (fun _ => fin 1) (fun _ => fin 3) 1).iError.IsFinite := by
    simp only [afterUpdates, update_eq_dbl, ctor_eq_dbl]
    norm_num [add, mul, div, ofInt, r0, r1, rh, IsFinite]
  have hD : (afterUpdates (ctor ⟨5, fin 7, fin 8, fin 9, fin 1, fin 2, fin 3, fin 4, fin 5,
        fin 6, ![fin 7, fin 8, fin 9, fin 10]⟩ 1 (fin 0) (fin 0) (fin 0))
          (fun _ => fin 1) (fun _ => fin 3) 1).dError.IsFinite := by
    simp only [afterUpdates, update_eq_dbl, ctor_eq_dbl]
    rw [derivative_of_zeros]
    trivial
  have h1 : mul (fin (3 * 5)) (fin 2) = fin (3 * 5 * 2) := by norm_num [mul, r30]
  have h2 : mul (fin 5) (fin 2) = fin (5 * 2) := by norm_num [mul, r10]
  have h3 : mul (fin 3) (fin (5 * 2)) = fin (3 * (5 * 2)) := by norm_num [mul, r30]
  exact ⟨hE, hI, hD, h1, h2, h3,
    (gain_independence_up_to_rounding _ _ 1 (fun _ => fin 1) (fun _ => fin 3) 1).2.2.2.2.1
      3 5 2 hE hI hD h1 h2 h3⟩

/-- Claim C13 as stated fails on the code.  With `c = 2^700`, `g = 2^-600` and
one `update(0, 2^-600)`, the controller built with gains `(c*g, 0, 0)`, that
is `(2^100, 0, 0)`, returns `2^-500`, while the one built with `(g, 0, 0)`
returns 0 because `2^-600 * 2^-600` underflows; `c` times 0 is 0. -/
theorem gain_independence_counterexample :
    (2 : ℚ) ^ (700 : ℤ) * 2 ^ (-600 : ℤ) = 2 ^ (100 : ℤ)
      ∧ IsRep (2 ^ (100 : ℤ)) ∧ IsRep (2 ^ (-600 : ℤ)) ∧ IsRep (2 ^ (700 : ℤ))
      ∧ (getOutput (afterUpdates (ctor ⟨5, fin 7, fin 8, fin 9, fin 1, fin 2, fin 3, fin 4,
          fin 5, fin 6, ![fin 7, fin 8, fin 9, fin 10]⟩ 1 (fin (2 ^ (100 : ℤ))) (fin 0) (fin 0))
            (fun _ => fin 0) (fun _ => fin (2 ^ (-600 : ℤ))) 1)).1 = fin (2 ^ (-500 : ℤ))
      ∧ (getOutput (afterUpdates (ctor ⟨5, fin 7, fin 8, fin 9, fin 1, fin 2, fin 3, fin 4,
          fin 5, fin 6, ![fin 7, fin 8, fin 9, fin 10]⟩ 1 (fin (2 ^ (-600 : ℤ))) (fin 0) (fin 0))
            (fun _ => fin 0) (fun _ => fin (2 ^ (-600 : ℤ))) 1)).1 = fin 0
      ∧ (getOutput (afterUpdates (ctor ⟨5, fin 7, fin 8, fin 9, fin 1, fin 2, fin 3, fin 4,
          fin 5, fin 6, ![fin 7, fin 8, fin 9, fin 10]⟩ 1 (fin (2 ^ (100 : ℤ))) (fin 0) (fin 0))
            (fun _ => fin 0) (fun _ => fin (2 ^ (-600 : ℤ))) 1)).1
          ≠ mul (fin (2 ^ (700 : ℤ)))
              (getOutput (afterUpdates (ctor ⟨5, fin 7, fin 8, fin 9, fin 1, fin 2, fin 3,
                fin 4, fin 5, fin 6, ![fin 7, fin 8, fin 9, fin 10]⟩ 1 (fin (2 ^ (-600 : ℤ)))
                  (fin 0) (fin 0)) (fun _ => fin 0) (fun _ => fin (2 ^ (-600 : ℤ))) 1)).1 := by
  have hcg : (2 : ℚ) ^ (700 : ℤ) * 2 ^ (-600 : ℤ) = 2 ^ (100 : ℤ) := by
    rw [← zpow_add₀ (by norm_num)]
    norm_num
  have h100 : IsRep ((2 : ℚ) ^ (100 : ℤ)) :=
    isRep_of_bits _ 1 100 1 (by norm_num) (by norm_num) (by norm_num) (by norm_num)
      (by rw [Int.cast_one, one_mul])
  have h600 : IsRep ((2 : ℚ) ^ (-600 : ℤ)) :=
    isRep_of_bits _ 1 (-600) 1 (by norm_num) (by norm_num) (by norm_num) (by norm_num)
      (by rw [Int.cast_one, one_mul])
  have h700 : IsRep ((2 : ℚ) ^ (700 : ℤ)) :=
    isRep_of_bits _ 1 700 1 (by norm_num) (by norm_num) (by norm_num) (by norm_num)
      (by rw [Int.cast_one, one_mul])
  have h500 : IsRep ((2 : ℚ) ^ (-500 : ℤ)) :=
    isRep_of_bits _ 1 (-500) 1 (by norm_num) (by norm_num) (by norm_num) (by norm_num)
      (by rw [Int.cast_one, one_mul])
  have hP : sub (fin (2 ^ (-600 : ℤ))) (fin 0) = fin (2 ^ (-600 : ℤ)) := by
    rw [sub_fin_fin, sub_zero, rnd_of_isRep _ h600]
  have hI : add (fin 0) (mul (div (add (fin 0) (fin 0)) (fin 2)) (ofInt 1)) = fin 0 := by
    rw [add_fin_fin, add_zero, rnd_zero, div_fin_fin 0 2 (by norm_num), zero_div, rnd_zero,
      ofInt_of_lt 1 (by norm_num), zero_mul_fin, add_fin_fin, add_zero, rnd_zero]
  have hstate : ∀ gain : Dbl,
      afterUpdates (ctor ⟨5, fin 7, fin 8, fin 9, fin 1, fin 2, fin 3, fin 4,
          fin 5, fin 6, ![fin 7, fin 8, fin 9, fin 10]⟩ 1 gain (fin 0) (fin 0))
            (fun _ => fin 0) (fun _ => fin (2 ^ (-600 : ℤ))) 1
        = ⟨1, gain, fin 0, fin 0, fin 0, fin 0, fin (2 ^ (-600 : ℤ)), fin (2 ^ (-600 : ℤ)),
            fin 0, fin 0, ![fin (2 ^ (-600 : ℤ)), fin 0, fin 0, fin 0]⟩ := by
    intro gain
    simp only [afterUpdates, update_eq_dbl, ctor_eq_dbl]
    rw [hP, hI, derivative_of_zeros]
  have hout : ∀ gain : Dbl,
      (getOutput (afterUpdates (ctor ⟨5, fin 7, fin 8, fin 9, fin 1, fin 2, fin 3, fin 4,
          fin 5, fin 6, ![fin 7, fin 8, fin 9, fin 10]⟩ 1 gain (fin 0) (fin 0))
            (fun _ => fin 0) (fun _ => fin (2 ^ (-600 : ℤ))) 1)).1
        = mul gain (fin (2 ^ (-600 : ℤ))) := by
    intro gain
    rw [hstate gain]
    exact output_of_pGain_only _ rfl rfl trivial trivial
  have hout1 : mul (fin (2 ^ (100 : ℤ))) (fin (2 ^ (-600 : ℤ))) = fin (2 ^ (-500 : ℤ)) := by
    rw [mul_fin_fin, ← zpow_add₀ (by norm_num), show (100 : ℤ) + -600 = -500 by norm_num,
      rnd_of_isRep _ h500]
  have hout2 : mul (fin (2 ^ (-600 : ℤ))) (fin (2 ^ (-600 : ℤ))) = fin 0 := by
    rw [mul_fin_fin, ← zpow_add₀ (by norm_num), show (-600 : ℤ) + -600 = -1200 by norm_num]
    apply rnd_underflow
    rw [abs_of_pos (two_zpow_pos _)]
    exact zpow_le_zpow_right₀ (by norm_num) (by norm_num)
  refine ⟨hcg, h100, h600, h700, ?_, ?_, ?_⟩
  · rw [hout, hout1]
  · rw [hout, hout2]
  · rw [hout, hout, hout1, hout2, fin_mul_zero]
    intro h
    injection h with h'
    exact absurd h' (ne_of_gt (two_zpow_pos _))

/-- Claim C18, as amended: the four-point derivative on linear ramps.  From any
state, `dError` after the update that follows four updates with the errors
`e1 .. e4` (oldest first, `e = target - value` in double arithmetic) is the
double value of `((e4 + 3.0*e3) - 3.0*e2 - e1) / 6.0`, whatever that update
feeds.  If the four errors are `a`, `a+b`, `a+2b`, `a+3b` and this expression
is computed exactly, `dError` is `b`; if they are all equal and it is computed
exactly, `dError` is 0. -/
theorem derivative_on_linear_ramp_when_exact (s : PID) (v t : ℕ → Dbl) (n : ℕ) :
    (afterUpdates s v t (n + 5)).dError
        = div (sub (sub (add (sub (t (n + 4)) (v (n + 4)))
              (mul (fin 3) (sub (t (n + 3)) (v (n + 3)))))
            (mul (fin 3) (sub (t (n + 2)) (v (n + 2)))))
            (sub (t (n + 1)) (v (n + 1)))) (fin 6)
      ∧ (∀ a b : ℚ, sub (t (n + 1)) (v (n + 1)) = fin a →
          sub (t (n + 2)) (v (n + 2)) = fin (a + b) →
          sub (t (n + 3)) (v (n + 3)) = fin (a + 2 * b) →
          sub (t (n + 4)) (v (n + 4)) = fin (a + 3 * b) →
          div (sub (sub (add (fin (a + 3 * b)) (mul (fin 3) (fin (a + 2 * b))))
              (mul (fin 3) (fin (a + b)))) (fin a)) (fin 6)
            = fin ((a + 3 * b + 3 * (a + 2 * b) - 3 * (a + b) - a) / 6) →
          (afterUpdates s v t (n + 5)).dError = fin b)
      ∧ (∀ a : ℚ, sub (t (n + 1)) (v (n + 1)) = fin a →
          sub (t (n + 2)) (v (n + 2)) = fin a →
          sub (t (n + 3)) (v (n + 3)) = fin a →
          sub (t (n + 4)) (v (n + 4)) = fin a →
          div (sub (sub (add (fin a) (mul (fin 3) (fin a))) (mul (fin 3) (fin a))) (fin a))
              (fin 6)
            = fin ((a + 3 * a - 3 * a - a) / 6) →
          (afterUpdates s v t (n + 5)).dError = fin 0) := by
  have key := afterUpdates_dError_add_five_dbl s v t n
  refine ⟨key, fun a b h1 h2 h3 h4 hex => ?_, fun a h1 h2 h3 h4 hex => ?_⟩
  · rw [key, h1, h2, h3, h4, hex]
    congr 1
    ring
  · rw [key, h1, h2, h3, h4, hex]
    congr 1
    ring

/-- An instance of claim C18: the errors 5, 12, 19, 26 of the first four
updates (a ramp of slope 7) are computed exactly, so is the derivative formula
on them, and `dError` is 7 after the fifth update. -/
theorem derivative_on_linear_ramp_when_exact_witness :
    sub (fin 5) (fin 0) = fin 5
      ∧ sub (fin 12) (fin 0) = fin (5 + 7)
      ∧ sub (fin 19) (fin 0) = fin (5 + 2 * 7)
      ∧ sub (fin 26) (fin 0) = fin (5 + 3 * 7)
      ∧ div (sub (sub (add (fin (5 + 3 * 7)) (mul (fin 3) (fin (5 + 2 * 7))))
              (mul (fin 3) (fin (5 + 7)))) (fin 5)) (fin 6)
            = fin ((5 + 3 * 7 + 3 * (5 + 2 * 7) - 3 * (5 + 7) - 5) / 6)
      ∧ (afterUpdates ⟨5, fin 7, fin 8, fin 9, fin 1, fin 2, fin 3, fin 4, fin 5, fin 6,
          ![fin 7, fin 8, fin 9, fin 10]⟩ (fun _ => fin 0)
            (fun k => if k = 1 then fin 5 else if k = 2 then fin 12
              else if k = 3 then fin 19 else fin 26) 5).dError = fin 7 := by
  have r5 : rnd 5 = fin 5 := by simpa using rnd_of_isRep _ (isRep_intCast 5 (by norm_num))
  have r7 : rnd 7 = fin 7 := by simpa using rnd_of_isRep _ (isRep_intCast 7 (by norm_num))
  have r12 : rnd 12 = fin 12 := by simpa using rnd_of_isRep _ (isRep_intCast 12 (by norm_num))
  have r19 : rnd 19 = fin 19 := by simpa using rnd_of_isRep _ (isRep_intCast 19 (by norm_num))
  have r26 : rnd 26 = fin 26 := by simpa using rnd_of_isRep _ (isRep_intCast 26 (by norm_num))
  have r36 : rnd 36 = fin 36 := by simpa using rnd_of_isRep _ (isRep_intCast 36 (by norm_num))
  have r42 : rnd 42 = fin 42 := by simpa using rnd_of_isRep _ (isRep_intCast 42 (by norm_num))
  have r47 : rnd 47 = fin 47 := by simpa using rnd_of_isRep _ (isRep_intCast 47 (by norm_num))
  have r57 : rnd 57 = fin 57 := by simpa using rnd_of_isRep _ (isRep_intCast 57 (by norm_num))
  have r83 : rnd 83 = fin 83 := by simpa using rnd_of_isRep _ (isRep_intCast 83 (by norm_num))
  have h1 : sub (fin 5) (fin 0) = fin 5 := by norm_num [sub, neg, add, r5]
  have h2 : sub (fin 12) (fin 0) = fin (5 + 7) := by norm_num [sub, neg, add, r12]
  have h3 : sub (fin 19) (fin 0) = fin (5 + 2 * 7) := by norm_num [sub, neg, add, r19]
  have h4 : sub (fin 26) (fin 0) = fin (5 + 3 * 7) := by norm_num [sub, neg, add, r26]
  have hex : div (sub (sub (add (fin (5 + 3 * 7)) (mul (fin 3) (fin (5 + 2 * 7))))
        (mul (fin 3) (fin (5 + 7)))) (fin 5)) (fin 6)
      = fin ((5 + 3 * 7 + 3 * (5 + 2 * 7) - 3 * (5 + 7) - 5) / 6) := by
    norm_num [sub, neg, add, mul, div, r57, r83, r36, r47, r42, r7]
  exact ⟨h1, h2, h3, h4, hex,
    (derivative_on_linear_ramp_when_exact ⟨5, fin 7, fin 8, fin 9, fin 1, fin 2, fin 3, fin 4,
      fin 5, fin 6, ![fin 7, fin 8, fin 9, fin 10]⟩ (fun _ => fin 0)
      (fun k => if k = 1 then fin 5 else if k = 2 then fin 12
        else if k = 3 then fin 19 else fin 26) 0).2.1 5 7 h1 h2 h3 h4 hex⟩

/-- Claim C18 as stated fails on the code.  Four updates `update(0, 2^1023)`
all have the error `2^1023`, a constant error and a ramp of slope 0, but in the
fifth update `3.0 * 2^1023` overflows to `+inf` and `inf - inf` leaves
`dError = NaN`, not 0. -/
theorem derivative_on_linear_ramp_counterexample :
    IsRep (2 ^ 1023)
      ∧ sub (fin (2 ^ 1023)) (fin 0) = fin (2 ^ 1023)
      ∧ (afterUpdates (ctor ⟨5, fin 7, fin 8, fin 9, fin 1, fin 2, fin 3, fin 4, fin 5, fin 6,
          ![fin 7, fin 8, fin 9, fin 10]⟩ 1 (fin 1) (fin 1) (fin 1))
            (fun _ => fin 0) (fun _ => fin (2 ^ 1023)) 5).dError = nan
      ∧ (afterUpdates (ctor ⟨5, fin 7, fin 8, fin 9, fin 1, fin 2, fin 3, fin 4, fin 5, fin 6,
          ![fin 7, fin 8, fin 9, fin 10]⟩ 1 (fin 1) (fin 1) (fin 1))
            (fun _ => fin 0) (fun _ => fin (2 ^ 1023)) 5).dError ≠ fin 0 := by
  have hA : IsRep ((2 : ℚ) ^ 1023) :=
    isRep_of_bits _ 1 1023 1 (by norm_num) (by norm_num) (by norm_num) (by norm_num)
      (by rw [zpow_ofNat, Int.cast_one, one_mul])
  have hE : sub (fin (2 ^ 1023)) (fin 0) = fin (2 ^ 1023) := by
    rw [sub_fin_fin, sub_zero, rnd_of_isRep _ hA]
  have hover : (2 : ℚ) ^ 1024 ≤ |3 * (2 : ℚ) ^ 1023| := by
    rw [abs_of_pos (by positivity), pow_succ 2 1023, mul_comm ((2 : ℚ) ^ 1023) 2]
    exact mul_le_mul_of_nonneg_right (by norm_num) (by positivity)
  have h3 : mul (fin 3) (fin (2 ^ 1023)) = inf false := by
    rw [mul_fin_fin, rnd_overflow _ hover, decide_eq_false (not_lt.mpr (by positivity))]
  have hD : (afterUpdates (ctor ⟨5, fin 7, fin 8, fin 9, fin 1, fin 2, fin 3, fin 4, fin 5,
        fin 6, ![fin 7, fin 8, fin 9, fin 10]⟩ 1 (fin 1) (fin 1) (fin 1))
          (fun _ => fin 0) (fun _ => fin (2 ^ 1023)) 5).dError = nan := by
    rw [afterUpdates_dError_add_five_dbl _ _ _ 0, hE, h3]
    rfl
  refine ⟨hA, hE, hD, ?_⟩
  rw [hD]
  exact fun h => Dbl.noConfusion h

/-- Claim C19, as amended: a controller that sits exactly on its target still
integrates.  For a fresh controller with finite gains, `iGain = i`, `i != 0`,
an `int` interval `> 0` and a finite measurement `q != 0`, after `n >= 1` calls
of `update(q, q)` both `pError` and `dError` are 0; and when every increment of
the integral term and the product `iGain * iError` are computed exactly,
`getOutput` is `i * interval * q * (n - 1/2)`, which is not 0.  That closed
form exceeds every bound as `n` grows.  Conversely, with every measurement 0
and any targets, `iError` stays 0 for ever. -/
theorem on_target_controller_integrates (c : PID) (hc : Fresh c) (hI : 0 < c.interval)
    (hI32 : c.interval < 2 ^ 31) (i q : ℚ) (hig : c.iGain = fin i) (hi0 : i ≠ 0) (hq : q ≠ 0)
    (hp : c.pGain.IsFinite) (hd : c.dGain.IsFinite) :
    (∀ n : ℕ, 1 ≤ n →
        (afterUpdates c (fun _ => fin q) (fun _ => fin q) n).pError = fin 0
          ∧ (afterUpdates c (fun _ => fin q) (fun _ => fin q) n).dError = fin 0)
      ∧ (∀ n : ℕ, 1 ≤ n →
          add (fin 0) (mul (div (add (fin q) (fin 0)) (fin 2)) (ofInt c.interval))
            = fin ((c.interval : ℚ) * q * (((1 : ℕ) : ℚ) - 1 / 2)) →
          (∀ k : ℕ, 1 ≤ k → k < n →
            add (fin ((c.interval : ℚ) * q * ((k : ℚ) - 1 / 2)))
                (mul (div (add (fin q) (fin q)) (fin 2)) (ofInt c.interval))
              = fin ((c.interval : ℚ) * q * (((k + 1 : ℕ) : ℚ) - 1 / 2))) →
          mul (fin i) (fin ((c.interval : ℚ) * q * ((n : ℚ) - 1 / 2)))
            = fin (i * (c.interval : ℚ) * q * ((n : ℚ) - 1 / 2)) →
          (getOutput (afterUpdates c (fun _ => fin q) (fun _ => fin q) n)).1
              = fin (i * (c.interval : ℚ) * q * ((n : ℚ) - 1 / 2))
            ∧ (getOutput (afterUpdates c (fun _ => fin q) (fun _ => fin q) n)).1 ≠ fin 0)
      ∧ (∀ bound : ℚ, ∃ n : ℕ, 1 ≤ n ∧ bound < |i * (c.interval : ℚ) * q * ((n : ℚ) - 1 / 2)|)
      ∧ (∀ (t : ℕ → Dbl) (n : ℕ), (afterUpdates c (fun _ => fin 0) t n).iError = fin 0) := by
  have hval : c.value = fin 0 := by rw [hc.eq_zeroed_dbl]
  have hie : c.iError = fin 0 := by rw [hc.eq_zeroed_dbl]
  have hh : c.previousErrors = fun _ => fin 0 := by rw [hc.eq_zeroed_dbl]
  have hIq : (0 : ℚ) < (c.interval : ℚ) := by exact_mod_cast hI
  have hpe : sub (fin q) (fin q) = fin 0 := by rw [sub_fin_fin, sub_self, rnd_zero]
  have hpos : ∀ m : ℕ, (0 : ℚ) < ((m + 1 : ℕ) : ℚ) - 1 / 2 := by
    intro m
    push_cast
    have : (0 : ℚ) ≤ (m : ℚ) := Nat.cast_nonneg m
    linarith
  have hK : i * (c.interval : ℚ) * q ≠ 0 := mul_ne_zero (mul_ne_zero hi0 (ne_of_gt hIq)) hq
  -- the errors pushed on the history are all zero
  have hist : ∀ n : ℕ,
      (afterUpdates c (fun _ => fin q) (fun _ => fin q) n).previousErrors = fun _ => fin 0 := by
    intro n
    induction n with
    | zero => exact hh
    | succ n ih =>
      rw [afterUpdates_succ_dbl]
      show ![sub (fin q) (fin q),
          (afterUpdates c (fun _ => fin q) (fun _ => fin q) n).previousErrors 0,
          (afterUpdates c (fun _ => fin q) (fun _ => fin q) n).previousErrors 1,
          (afterUpdates c (fun _ => fin q) (fun _ => fin q) n).previousErrors 2]
        = fun _ => fin 0
      rw [ih, hpe]
      funext j
      fin_cases j <;> rfl
  have hzero : ∀ m : ℕ,
      (afterUpdates c (fun _ => fin q) (fun _ => fin q) (m + 1)).pError = fin 0
        ∧ (afterUpdates c (fun _ => fin q) (fun _ => fin q) (m + 1)).dError = fin 0 := by
    intro m
    rw [afterUpdates_succ_dbl]
    refine ⟨hpe, ?_⟩
    show div (sub (sub (add ((afterUpdates c (fun _ => fin q) (fun _ => fin q) m).previousErrors 0)
          (mul (fin 3) ((afterUpdates c (fun _ => fin q) (fun _ => fin q) m).previousErrors 1)))
        (mul (fin 3) ((afterUpdates c (fun _ => fin q) (fun _ => fin q) m).previousErrors 2)))
        ((afterUpdates c (fun _ => fin q) (fun _ => fin q) m).previousErrors 3)) (fin 6) = fin 0
    rw [hist m]
    exact derivative_of_zeros
  refine ⟨fun n hn => ?_, fun n hn hfirst hstep hprod => ?_, fun bound => ?_, fun t n => ?_⟩
  · obtain ⟨m, rfl⟩ : ∃ m, n = m + 1 := ⟨n - 1, by omega⟩
    exact hzero m
  · obtain ⟨m, rfl⟩ : ∃ m, n = m + 1 := ⟨n - 1, by omega⟩
    have hint : ∀ j : ℕ, j ≤ m →
        (afterUpdates c (fun _ => fin q) (fun _ => fin q) (j + 1)).value = fin q
          ∧ (afterUpdates c (fun _ => fin q) (fun _ => fin q) (j + 1)).iError
              = fin ((c.interval : ℚ) * q * (((j + 1 : ℕ) : ℚ) - 1 / 2)) := by
      intro j
      induction j with
      | zero =>
        intro _
        rw [afterUpdates_succ_dbl]
        refine ⟨rfl, ?_⟩
        show add c.iError (mul (div (add (fin q) c.value) (fin 2)) (ofInt c.interval)) = _
        rw [hie, hval]
        exact hfirst
      | succ j ih =>
        intro hj
        have ihj := ih (by omega)
        rw [afterUpdates_succ_dbl]
        refine ⟨rfl, ?_⟩
        show add (afterUpdates c (fun _ => fin q) (fun _ => fin q) (j + 1)).iError
            (mul (div (add (fin q)
              (afterUpdates c (fun _ => fin q) (fun _ => fin q) (j + 1)).value) (fin 2))
              (ofInt (afterUpdates c (fun _ => fin q) (fun _ => fin q) (j + 1)).interval)) = _
        rw [ihj.1, ihj.2, (afterUpdates_parameters_dbl c _ _ (j + 1)).1]
        exact hstep (j + 1) (by omega) (by omega)
    have hpar := afterUpdates_parameters_dbl c (fun _ => fin q) (fun _ => fin q) (m + 1)
    have hout : (getOutput (afterUpdates c (fun _ => fin q) (fun _ => fin q) (m + 1))).1
        = fin (i * (c.interval : ℚ) * q * (((m + 1 : ℕ) : ℚ) - 1 / 2)) := by
      show add (add (mul (afterUpdates c (fun _ => fin q) (fun _ => fin q) (m + 1)).pGain
            (afterUpdates c (fun _ => fin q) (fun _ => fin q) (m + 1)).pError)
          (mul (afterUpdates c (fun _ => fin q) (fun _ => fin q) (m + 1)).iGain
            (afterUpdates c (fun _ => fin q) (fun _ => fin q) (m + 1)).iError))
          (mul (afterUpdates c (fun _ => fin q) (fun _ => fin q) (m + 1)).dGain
            (afterUpdates c (fun _ => fin q) (fun _ => fin q) (m + 1)).dError) = _
      rw [(hzero m).1, (hzero m).2, (hint m le_rfl).2, hpar.2.1, hpar.2.2.1, hpar.2.2.2, hig,
        mul_zero_of_isFinite _ hp, mul_zero_of_isFinite _ hd,
        zero_add_of_isDouble _ (isDouble_mul _ _), add_zero_of_isDouble _ (isDouble_mul _ _)]
      exact hprod
    refine ⟨hout, ?_⟩
    rw [hout]
    intro h
    injection h with h1
    exact mul_ne_zero hK (ne_of_gt (hpos m)) h1
  · obtain ⟨m, hm⟩ := exists_nat_gt (bound / |i * (c.interval : ℚ) * q|)
    refine ⟨m + 1, by omega, ?_⟩
    rw [abs_mul, abs_of_pos (hpos m)]
    have hKpos : 0 < |i * (c.interval : ℚ) * q| := abs_pos.mpr hK
    have h1 : bound < (m : ℚ) * |i * (c.interval : ℚ) * q| := (div_lt_iff₀ hKpos).mp hm
    push_cast
    nlinarith
  · have hof : ofInt c.interval = fin (c.interval : ℚ) := by
      apply ofInt_of_lt
      rw [abs_of_pos hI]
      exact lt_trans hI32 (by norm_num)
    have inv : (afterUpdates c (fun _ => fin 0) t n).value = fin 0
        ∧ (afterUpdates c (fun _ => fin 0) t n).iError = fin 0 := by
      induction n with
      | zero => exact ⟨hval, hie⟩
      | succ n ih =>
        rw [afterUpdates_succ_dbl]
        refine ⟨rfl, ?_⟩
        show add (afterUpdates c (fun _ => fin 0) t n).iError
            (mul (div (add (fin 0) (afterUpdates c (fun _ => fin 0) t n).value) (fin 2))
              (ofInt (afterUpdates c (fun _ => fin 0) t n).interval)) = fin 0
        rw [ih.1, ih.2, (afterUpdates_parameters_dbl c _ t n).1, hof, add_fin_fin, add_zero,
          rnd_zero, div_fin_fin 0 2 (by norm_num), zero_div, rnd_zero, zero_mul_fin,
          add_fin_fin, add_zero, rnd_zero]
    exact inv.2

/-- An instance of claim C19: built with `(interval=3, pGain=5, iGain=2,
dGain=7)` and fed `update(11, 11)` twice, the controller is on target, both
increments of the integral term and the product with `iGain` are exact, and
`getOutput` returns `2 * 3 * 11 * (2 - 1/2) = 99`. -/
theorem on_target_controller_integrates_witness :
    Fresh (⟨3, fin 5, fin 2, fin 7, fin 0, fin 0, fin 0, fin 0, fin 0, fin 0,
        fun _ => fin 0⟩ : PID)
      ∧ (0 : ℤ) < 3 ∧ (3 : ℤ) < 2 ^ 31 ∧ (2 : ℚ) ≠ 0 ∧ (11 : ℚ) ≠ 0 ∧ 1 ≤ 2
      ∧ add (fin 0) (mul (div (add (fin 11) (fin 0)) (fin 2)) (ofInt 3))
          = fin (((3 : ℤ) : ℚ) * 11 * (((1 : ℕ) : ℚ) - 1 / 2))
      ∧ (∀ k : ℕ, 1 ≤ k → k < 2 →
          add (fin (((3 : ℤ) : ℚ) * 11 * ((k : ℚ) - 1 / 2)))
              (mul (div (add (fin 11) (fin 11)) (fin 2)) (ofInt 3))
            = fin (((3 : ℤ) : ℚ) * 11 * (((k + 1 : ℕ) : ℚ) - 1 / 2)))
      ∧ mul (fin 2) (fin (((3 : ℤ) : ℚ) * 11 * (((2 : ℕ) : ℚ) - 1 / 2)))
          = fin (2 * ((3 : ℤ) : ℚ) * 11 * (((2 : ℕ) : ℚ) - 1 / 2))
      ∧ (getOutput (afterUpdates (⟨3, fin 5, fin 2, fin 7, fin 0, fin 0, fin 0, fin 0, fin 0,
          fin 0, fun _ => fin 0⟩ : PID) (fun _ => fin 11) (fun _ => fin 11) 2)).1 = fin 99 := by
  have hc : Fresh (⟨3, fin 5, fin 2, fin 7, fin 0, fin 0, fin 0, fin 0, fin 0, fin 0,
      fun _ => fin 0⟩ : PID) :=
    Or.inl ⟨⟨5, fin 7, fin 8, fin 9, fin 1, fin 2, fin 3, fin 4, fin 5, fin 6,
      ![fin 7, fin 8, fin 9, fin 10]⟩, 3, fin 5, fin 2, fin 7, (ctor_eq_dbl _ _ _ _ _).symm⟩
  have r3 : rnd 3 = fin 3 := by simpa using rnd_of_isRep _ (isRep_intCast 3 (by norm_num))
  have r11 : rnd 11 = fin 11 := by simpa using rnd_of_isRep _ (isRep_intCast 11 (by norm_num))
  have r22 : rnd 22 = fin 22 := by simpa using rnd_of_isRep _ (isRep_intCast 22 (by norm_num))
  have r33 : rnd 33 = fin 33 := by simpa using rnd_of_isRep _ (isRep_intCast 33 (by norm_num))
  have r99 : rnd 99 = fin 99 := by simpa using rnd_of_isRep _ (isRep_intCast 99 (by norm_num))
  have r11h : rnd (11 / 2) = fin (11 / 2) :=
    rnd_of_bits _ 11 (-1) 4 (by norm_num) (by norm_num) (by norm_num) (by norm_num)
      (by norm_num)
  have r33h : rnd (33 / 2) = fin (33 / 2) :=
    rnd_of_bits _ 33 (-1) 6 (by norm_num) (by norm_num) (by norm_num) (by norm_num)
      (by norm_num)
  have r99h : rnd (99 / 2) = fin (99 / 2) :=
    rnd_of_bits _ 99 (-1) 7 (by norm_num) (by norm_num) (by norm_num) (by norm_num)
      (by norm_num)
  have hfirst : add (fin 0) (mul (div (add (fin 11) (fin 0)) (fin 2)) (ofInt 3))
      = fin (((3 : ℤ) : ℚ) * 11 * (((1 : ℕ) : ℚ) - 1 / 2)) := by
    norm_num [add, mul, div, ofInt, r3, r11, r11h, r33h]
  have hstep : ∀ k : ℕ, 1 ≤ k → k < 2 →
      add (fin (((3 : ℤ) : ℚ) * 11 * ((k : ℚ) - 1 / 2)))
          (mul (div (add (fin 11) (fin 11)) (fin 2)) (ofInt 3))
        = fin (((3 : ℤ) : ℚ) * 11 * (((k + 1 : ℕ) : ℚ) - 1 / 2)) := by
    intro k h1 h2
    obtain rfl : k = 1 := by omega
    norm_num [add, mul, div, ofInt, r3, r11, r22, r33, r99h]
  have hprod : mul (fin 2) (fin (((3 : ℤ) : ℚ) * 11 * (((2 : ℕ) : ℚ) - 1 / 2)))
      = fin (2 * ((3 : ℤ) : ℚ) * 11 * (((2 : ℕ) : ℚ) - 1 / 2)) := by
    norm_num [mul, r99]
  refine ⟨hc, by norm_num, by norm_num, by norm_num, by norm_num, by norm_num, hfirst, hstep,
    hprod, ?_⟩
  rw [((on_target_controller_integrates _ hc (by norm_num) (by norm_num) 2 11 rfl
    (by norm_num) (by norm_num) trivial trivial).2.1 2 (by norm_num) hfirst hstep hprod).1]
  norm_num

/-- Claim C19 as stated fails on the code.  A fresh controller built with
`(interval=1, pGain=0, iGain=2^-600, dGain=0)` and fed `update(2^-600, 2^-600)`
once has `iError = 2^-601`, and the product `iGain * iError = 2^-1201`
underflows: `getOutput` returns exactly 0, where the claim gives
`iGain * interval * v * (1 - 1/2) = 2^-1201`, a number that is not 0. -/
theorem on_target_controller_counterexample :
    Fresh (ctor ⟨5, fin 7, fin 8, fin 9, fin 1, fin 2, fin 3, fin 4, fin 5, fin 6,
        ![fin 7, fin 8, fin 9, fin 10]⟩ 1 (fin 0) (fin (2 ^ (-600 : ℤ))) (fin 0))
      ∧ IsRep (2 ^ (-600 : ℤ))
      ∧ (2 : ℚ) ^ (-600 : ℤ) ≠ 0
      ∧ (2 : ℚ) ^ (-600 : ℤ) * ((1 : ℤ) : ℚ) * 2 ^ (-600 : ℤ) * (((1 : ℕ) : ℚ) - 1 / 2) ≠ 0
      ∧ (getOutput (afterUpdates (ctor ⟨5, fin 7, fin 8, fin 9, fin 1, fin 2, fin 3, fin 4,
          fin 5, fin 6, ![fin 7, fin 8, fin 9, fin 10]⟩ 1 (fin 0) (fin (2 ^ (-600 : ℤ)))
            (fin 0)) (fun _ => fin (2 ^ (-600 : ℤ))) (fun _ => fin (2 ^ (-600 : ℤ))) 1)).1
          = fin 0
      ∧ (getOutput (afterUpdates (ctor ⟨5, fin 7, fin 8, fin 9, fin 1, fin 2, fin 3, fin 4,
          fin 5, fin 6, ![fin 7, fin 8, fin 9, fin 10]⟩ 1 (fin 0) (fin (2 ^ (-600 : ℤ)))
            (fin 0)) (fun _ => fin (2 ^ (-600 : ℤ))) (fun _ => fin (2 ^ (-600 : ℤ))) 1)).1
          ≠ fin ((2 : ℚ) ^ (-600 : ℤ) * ((1 : ℤ) : ℚ) * 2 ^ (-600 : ℤ)
              * (((1 : ℕ) : ℚ) - 1 / 2)) := by
  have h600 : IsRep ((2 : ℚ) ^ (-600 : ℤ)) :=
    isRep_of_bits _ 1 (-600) 1 (by norm_num) (by norm_num) (by norm_num) (by norm_num)
      (by rw [Int.cast_one, one_mul])
  have h601 : IsRep ((2 : ℚ) ^ (-601 : ℤ)) :=
    isRep_of_bits _ 1 (-601) 1 (by norm_num) (by norm_num) (by norm_num) (by norm_num)
      (by rw [Int.cast_one, one_mul])
  have hne : (2 : ℚ) ^ (-600 : ℤ) ≠ 0 := ne_of_gt (two_zpow_pos _)
  have hclaim : (2 : ℚ) ^ (-600 : ℤ) * ((1 : ℤ) : ℚ) * 2 ^ (-600 : ℤ)
      * (((1 : ℕ) : ℚ) - 1 / 2) ≠ 0 :=
    mul_ne_zero (mul_ne_zero (mul_ne_zero hne (by norm_num)) hne) (by norm_num)
  have hhalf : (2 : ℚ) ^ (-600 : ℤ) / 2 = 2 ^ (-601 : ℤ) := by
    rw [show (-601 : ℤ) = -600 - 1 by norm_num, zpow_sub₀ (by norm_num), zpow_one]
  have hP : sub (fin (2 ^ (-600 : ℤ))) (fin (2 ^ (-600 : ℤ))) = fin 0 := by
    rw [sub_fin_fin, sub_self, rnd_zero]
  have hI : add (fin 0) (mul (div (add (fin (2 ^ (-600 : ℤ))) (fin 0)) (fin 2)) (ofInt 1))
      = fin (2 ^ (-601 : ℤ)) := by
    rw [add_zero_of_isDouble (fin (2 ^ (-600 : ℤ))) h600, div_fin_fin _ 2 (by norm_num), hhalf,
      rnd_of_isRep _ h601, ofInt_of_lt 1 (by norm_num), mul_fin_fin, Int.cast_one, mul_one,
      rnd_of_isRep _ h601]
    exact zero_add_of_isDouble _ h601
  have hstate :
      afterUpdates (ctor ⟨5, fin 7, fin 8, fin 9, fin 1, fin 2, fin 3, fin 4,
          fin 5, fin 6, ![fin 7, fin 8, fin 9, fin 10]⟩ 1 (fin 0) (fin (2 ^ (-600 : ℤ)))
            (fin 0)) (fun _ => fin (2 ^ (-600 : ℤ))) (fun _ => fin (2 ^ (-600 : ℤ))) 1
        = ⟨1, fin 0, fin (2 ^ (-600 : ℤ)), fin 0, fin (2 ^ (-600 : ℤ)), fin 0,
            fin (2 ^ (-600 : ℤ)), fin 0, fin (2 ^ (-601 : ℤ)), fin 0,
            ![fin 0, fin 0, fin 0, fin 0]⟩ := by
    simp only [afterUpdates, update_eq_dbl, ctor_eq_dbl]
    rw [hP, hI, derivative_of_zeros]
  have hunder : mul (fin (2 ^ (-600 : ℤ))) (fin (2 ^ (-601 : ℤ))) = fin 0 := by
    rw [mul_fin_fin, ← zpow_add₀ (by norm_num), show (-600 : ℤ) + -601 = -1201 by norm_num]
    apply rnd_underflow
    rw [abs_of_pos (two_zpow_pos _)]
    exact zpow_le_zpow_right₀ (by norm_num) (by norm_num)
  have hout : (getOutput (afterUpdates (ctor ⟨5, fin 7, fin 8, fin 9, fin 1, fin 2, fin 3,
        fin 4, fin 5, fin 6, ![fin 7, fin 8, fin 9, fin 10]⟩ 1 (fin 0) (fin (2 ^ (-600 : ℤ)))
          (fin 0)) (fun _ => fin (2 ^ (-600 : ℤ))) (fun _ => fin (2 ^ (-600 : ℤ))) 1)).1
      = fin 0 := by
    rw [hstate]
    have h := output_of_iGain_only (⟨1, fin 0, fin (2 ^ (-600 : ℤ)), fin 0,
      fin (2 ^ (-600 : ℤ)), fin 0, fin (2 ^ (-600 : ℤ)), fin 0, fin (2 ^ (-601 : ℤ)), fin 0,
      ![fin 0, fin 0, fin 0, fin 0]⟩ : PID) rfl rfl trivial trivial
    exact h.trans hunder
  refine ⟨Or.inl ⟨_, _, _, _, _, rfl⟩, h600, hne, hclaim, hout, ?_⟩
  rw [hout]
  intro h
  injection h with h1
  exact hclaim h1.symm

end PID

end IEEE
